import Mathlib

/-!
Verification of the three SAT engines of this repository (dp.py, dpll.py,
resolution.py) against its natural-language specification.

The embedding mirrors the Python source:
* a clause is a list of integer literals (dp.py / dpll.py) or a finite set
  of integer literals (resolution.py);
* a formula is a list of clauses;
* the recursive procedures `dp_eliminate` and `dpll_rec` and the saturation
  loop `resolution` are embedded with an explicit fuel argument (the first
  `Nat` parameter); `none` means the fuel ran out, `some` carries the value
  the Python function returns.

Where the Python source iterates over a `set` or a `dict` in container
order, the embedding fixes a deterministic order (documented at each
definition); all theorems proved about those functions depend only on
order-independent facts, and each concrete evaluation used in a theorem was
checked by hand to be independent of the container order the source would
use.
-/

namespace SatSolvers

/-- A clause as in dp.py / dpll.py: a list of integer literals. -/
abbrev Clause := List Int

/-- A formula: the list of clauses handed to the solvers. -/
abbrev Formula := List Clause

/-- Well-formed input per the spec's data model: no literal is zero. -/
def WF (F : Formula) : Prop := ∀ c ∈ F, ∀ l ∈ c, l ≠ 0

instance : DecidablePred WF := fun F =>
  inferInstanceAs (Decidable (∀ c ∈ F, ∀ l ∈ c, l ≠ 0))

/-- Truth value of a literal under a total assignment of the variables
(an assignment is read at the positive variable index). -/
def litHolds (v : Int → Bool) (l : Int) : Bool :=
  if 0 < l then v l else ! v (-l)

/-- A clause is satisfied when one of its literals holds. -/
def clauseSat (v : Int → Bool) (c : Clause) : Prop :=
  ∃ l ∈ c, litHolds v l = true

/-- Semantic satisfiability of a formula. -/
def Sat (F : Formula) : Prop :=
  ∃ v : Int → Bool, ∀ c ∈ F, clauseSat v c

theorem litHolds_neg (v : Int → Bool) (l : Int) (hl : l ≠ 0) :
    litHolds v (-l) = ! litHolds v l := by
  rcases lt_trichotomy 0 l with h | h | h
  · have h1 : ¬ (0:Int) < -l := by omega
    simp [litHolds, h, h1]
  · omega
  · have h1 : (0:Int) < -l := by omega
    simp [litHolds, h1, not_lt.mpr (le_of_lt h)]

/-! ### dp.py -/

/-- dp.py `find_unit_clause`: the first clause of length one, if any. -/
def find_unit_clause : Formula → Option Int
  | [] => none
  | c :: rest => if c.length = 1 then some c.headI else find_unit_clause rest

/-- Removal of every copy of literal `x` from a clause
(the `[lit for lit in c if lit != x]` comprehensions of the source). -/
def removeLit (c : Clause) (x : Int) : Clause := c.filter (fun l => l ≠ x)

theorem mem_removeLit {c : Clause} {x l : Int} :
    l ∈ removeLit c x ↔ l ∈ c ∧ l ≠ x := by
  simp [removeLit]

theorem removeLit_eq_nil {c : Clause} {x : Int} :
    removeLit c x = [] ↔ ∀ l ∈ c, l = x := by
  simp [removeLit, List.filter_eq_nil_iff]

theorem removeLit_of_not_mem {c : Clause} {x : Int} (h : x ∉ c) :
    removeLit c x = c :=
  List.filter_eq_self.mpr (fun a ha => by
    simp only [ne_eq, decide_eq_true_eq]
    rintro rfl; exact h ha)

/-- Helper for dp.py `unit_propagate`: `none` signals that filtering `-u`
out of some clause left it empty, which makes the Python function return
`[[]]` at once. -/
def unit_propagate_go (u : Int) : Formula → Option Formula
  | [] => some []
  | c :: rest =>
      if u ∈ c then unit_propagate_go u rest
      else if -u ∈ c then
        if removeLit c (-u) = [] then none
        else (unit_propagate_go u rest).map (removeLit c (-u) :: ·)
      else (unit_propagate_go u rest).map (c :: ·)

/-- dp.py `unit_propagate`: drop clauses containing `u`, filter `-u` from
the rest, and collapse to `[[]]` as soon as a clause becomes empty. -/
def unit_propagate (F : Formula) (u : Int) : Formula :=
  match unit_propagate_go u F with
  | none => [[]]
  | some F' => F'

/-- First-occurrence deduplication, as Python's `dict.fromkeys` /
insertion-ordered `dict` produce. -/
def dedupFirstGo [DecidableEq α] (seen : List α) : List α → List α
  | [] => []
  | a :: l => if a ∈ seen then dedupFirstGo seen l else a :: dedupFirstGo (a :: seen) l

/-- First-occurrence deduplication of a list. -/
def dedupFirst [DecidableEq α] (l : List α) : List α := dedupFirstGo [] l

/-- Does variable `v` occur positively somewhere in `F`?  (dp.py collects
`lit > 0` marks into `pol[abs(lit)]`.) -/
def dpPosOcc (F : Formula) (v : Nat) : Bool :=
  F.any (fun c => c.any (fun l => decide (0 < l) && decide (l.natAbs = v)))

/-- Does variable `v` occur non-positively somewhere in `F`? -/
def dpNegOcc (F : Formula) (v : Nat) : Bool :=
  F.any (fun c => c.any (fun l => decide (¬ 0 < l) && decide (l.natAbs = v)))

/-- Variables of `F` in first-occurrence order, matching the insertion
order of the `pol` dict in dp.py's `find_pure_literal`. -/
def dpVarOrder (F : Formula) : List Nat :=
  dedupFirst (F.flatten.map Int.natAbs)

/-- dp.py `find_pure_literal`: the first variable (in first-occurrence
order) whose occurrences all share one polarity, signed by that polarity. -/
def find_pure_literal (F : Formula) : Option Int :=
  match (dpVarOrder F).find? (fun v => ! (dpPosOcc F v && dpNegOcc F v)) with
  | none => none
  | some v => some (if dpPosOcc F v then (v : Int) else -(v : Int))

/-- The tautology test dp.py applies to a resolvent
(`any(-l in R for l in R)`); it doubles as our "dirty clause" predicate. -/
def hasComplPair (c : Clause) : Bool :=
  c.any (fun l => decide ((-l) ∈ c))

/-- The resolvents dp.py's elimination step forms on pivot `var`: for
every clause containing `var` and every clause containing `-var`, the
concatenation with the pivot literals removed, first-occurrence
deduplicated (`dict.fromkeys`), kept only when it contains no
complementary pair. -/
def dpResolvents (F : Formula) (var : Int) : Formula :=
  ((F.filter (fun c => var ∈ c)).map (fun C =>
    (F.filter (fun c => -var ∈ c)).filterMap (fun D =>
      let R := dedupFirst (removeLit C var ++ removeLit D (-var))
      if hasComplPair R then none else some R))).flatten

/-- The variable-elimination body of dp.py `dp_eliminate` (lines 87–99)
for a given pivot `var`: the clauses mentioning neither polarity of the
pivot, followed by all kept resolvents. -/
def dpElimWith (F : Formula) (var : Int) : Formula :=
  F.filter (fun c => var ∉ c ∧ -var ∉ c) ++ dpResolvents F var

/-- One variable-elimination step of dp.py: the pivot is the magnitude of
the first literal of the first clause (`abs(clauses[0][0])`). -/
def dpElimStep (F : Formula) : Formula :=
  dpElimWith F F.headI.headI.natAbs

/-- dp.py `dp_eliminate`, with fuel.  The branch order is the source's:
empty clause, empty formula, pure literal, unit clause, elimination. -/
def dp_eliminate : Nat → Formula → Option Bool
  | 0, _ => none
  | n + 1, F =>
      if F.any (fun c => c.isEmpty) then some false
      else if F.isEmpty then some true
      else
        match find_pure_literal F with
        | some p => dp_eliminate n (F.filter (fun c => p ∉ c))
        | none =>
          match find_unit_clause F with
          | some u => dp_eliminate n (unit_propagate F u)
          | none => dp_eliminate n (dpElimStep F)

/-! ### dpll.py -/

/-- A partial assignment as in dpll.py: the set of literals made true.
dpll.py only ever observes its model set through membership tests and
extends it with `model | {lit}`; we embed it as a list of literals with
insert-if-absent, which has the same observable behaviour. -/
abbrev Model := List Int

/-- The set extension `model | {lit}` of dpll.py. -/
def insertLit (m : Model) (t : Int) : Model := if t ∈ m then m else t :: m

theorem mem_insertLit {m : Model} {t l : Int} :
    l ∈ insertLit m t ↔ l = t ∨ l ∈ m := by
  rw [insertLit]
  by_cases h : t ∈ m
  · rw [if_pos h]
    constructor
    · exact Or.inr
    · rintro (rfl | hl)
      · exact h
      · exact hl
  · rw [if_neg h]
    exact List.mem_cons

theorem mem_insertLit_self (m : Model) (t : Int) : t ∈ insertLit m t :=
  mem_insertLit.mpr (Or.inl rfl)

theorem subset_insertLit (m : Model) (t : Int) : m ⊆ insertLit m t :=
  fun _ hl => mem_insertLit.mpr (Or.inr hl)

/-- The model invariant of the spec: no variable carries both polarities. -/
def Consistent (m : Model) : Prop := ∀ l ∈ m, -l ∉ m

instance (m : Model) : Decidable (Consistent m) := by
  unfold Consistent; infer_instance

/-- dpll.py `all_true`: every clause has a literal in the model. -/
def all_true (F : Formula) (m : Model) : Bool :=
  F.all (fun c => c.any (fun l => decide (l ∈ m)))

/-- dpll.py `some_false`: some clause has all its literals negated in the
model (vacuously true for an empty clause). -/
def some_false (F : Formula) (m : Model) : Bool :=
  F.any (fun c => c.all (fun l => decide ((-l) ∈ m)))

/-- dpll.py `unit_clause`: scan clauses in order; return the single
surviving literal of the first clause whose survivors (literals whose
negation is not yet in the model) number exactly one and whose survivor is
itself wholly unassigned. -/
def unit_clause (m : Model) : Formula → Option Int
  | [] => none
  | c :: rest =>
      let s := c.filter (fun l => decide ((-l) ∉ m))
      if s.length = 1 ∧ s.headI ∉ m ∧ -s.headI ∉ m then some s.headI
      else unit_clause m rest

/-- Unassigned occurrence test used by dpll.py `pure_literal`: literal
occurrences already decided by the model are skipped. -/
def unassigned (m : Model) (l : Int) : Bool :=
  decide (l ∉ m) && decide ((-l) ∉ m)

/-- Does `v` occur positively among unassigned occurrences? -/
def dpllPosOcc (F : Formula) (m : Model) (v : Nat) : Bool :=
  F.any (fun c => c.any (fun l => unassigned m l && decide (0 < l) && decide (l.natAbs = v)))

/-- Does `v` occur non-positively among unassigned occurrences? -/
def dpllNegOcc (F : Formula) (m : Model) (v : Nat) : Bool :=
  F.any (fun c => c.any (fun l => unassigned m l && decide (¬ 0 < l) && decide (l.natAbs = v)))

/-- Variables with an unassigned occurrence, in first-occurrence order
(the `counts` dict insertion order of dpll.py). -/
def dpllVarOrder (F : Formula) (m : Model) : List Nat :=
  dedupFirst (((F.flatten).filter (unassigned m)).map Int.natAbs)

/-- dpll.py `pure_literal`: first variable whose unassigned occurrences
share one polarity, signed by that polarity. -/
def pure_literal (F : Formula) (m : Model) : Option Int :=
  match (dpllVarOrder F m).find? (fun v => ! (dpllPosOcc F m v && dpllNegOcc F m v)) with
  | none => none
  | some v => some (if dpllPosOcc F m v then (v : Int) else -(v : Int))

/-- dpll.py `simplify`: drop clauses satisfied by the assignment
`var ↦ value` and delete the falsified literal from the others. -/
def simplify (F : Formula) (var : Int) (value : Bool) : Formula :=
  let satLit := if value then var else -var
  let falseLit := if value then -var else var
  (F.filter (fun c => satLit ∉ c)).map (fun c => removeLit c falseLit)

/-- The branch literal of dpll.py `dpll_rec` (lines 92–94): the first
wholly unassigned literal in clause-scan order. -/
def findUnassigned (m : Model) : Formula → Option Int
  | [] => none
  | c :: rest =>
      match c.find? (unassigned m) with
      | some l => some l
      | none => findUnassigned m rest

/-- dpll.py `dpll_rec`, with fuel.  `some (some μ)` is a returned model,
`some none` the "no model" result, `none` exhausted fuel.  The rule order
is the source's: satisfied, falsified, unit, pure, branch (try the
variable positively, then negatively). -/
def dpll_rec : Nat → Formula → Model → Option (Option Model)
  | 0, _, _ => none
  | n + 1, F, m =>
      if all_true F m then some (some m)
      else if some_false F m then some none
      else
        match unit_clause m F with
        | some u => dpll_rec n (simplify F u.natAbs (decide (0 < u))) (insertLit m u)
        | none =>
          match pure_literal F m with
          | some p => dpll_rec n (simplify F p.natAbs (decide (0 < p))) (insertLit m p)
          | none =>
            match findUnassigned m F with
            | some lit =>
                match dpll_rec n (simplify F (lit.natAbs : Int) true)
                    (insertLit m ((lit.natAbs : Int))) with
                | none => none
                | some (some res) => some (some res)
                | some none =>
                    dpll_rec n (simplify F (lit.natAbs : Int) false)
                      (insertLit m (-(lit.natAbs : Int)))
            | none => some none

/-! ### resolution.py

resolution.py stores clauses as `frozenset`s inside Python `set`s.  We
embed a frozenset of literals as its canonical list (duplicate-free,
ascending) and a set of clauses as a duplicate-free list of canonical
clauses; equality of canonical lists then coincides with equality of the
Python sets.  Two choices the source leaves to Python's unspecified set
iteration order are fixed deterministically here:
* `resolve_pair` scans `c1` for a literal whose negation lies in `c2`; we
  scan in ascending literal order (the canonical clause order);
* the round loop visits each unordered pair of distinct clauses once, in
  the set's iteration order, calling `resolve_pair` with that orientation;
  we close over both orientations of every distinct pair.
All theorems proved below depend only on membership, never on the order
fixed by these choices.
-/

/-- A clause of resolution.py: a `frozenset` of literals, embedded as a
canonical (sorted, duplicate-free) list. -/
abbrev SClause := List Int

/-- Insertion of an integer into a sorted list. -/
def insertSorted (x : Int) : List Int → List Int
  | [] => [x]
  | y :: t => if x ≤ y then x :: y :: t else y :: insertSorted x t

/-- Insertion sort for lists of integers. -/
def sortInts (l : List Int) : List Int := l.foldr insertSorted []

/-- The canonical form of a finite set of literals: duplicates removed,
then sorted ascending. -/
def normClause (c : List Int) : SClause := sortInts (dedupFirst c)

/-- resolution.py `resolve_pair`: find a literal of `c1` whose negation is
in `c2` and return the union minus BOTH polarities of it (the source's
`(c1 | c2) - {lit, -lit}`), else `None`. -/
def resolve_pair (c1 c2 : SClause) : Option SClause :=
  match c1.find? (fun l => decide ((-l) ∈ c2)) with
  | some l => some (normClause ((c1 ++ c2).filter (fun x => x ≠ l ∧ x ≠ -l)))
  | none => none

/-- All resolvents the round loop of resolution.py forms from the current
working set: one per ordered pair of distinct clauses. -/
def resolventsOf (S : List SClause) : List SClause :=
  (S.map (fun c1 => S.filterMap (fun c2 =>
    if c1 = c2 then none else resolve_pair c1 c2))).flatten

/-- Does some pair of distinct clauses of `S` resolve to the empty clause?
(The `if not r: return False` exit of resolution.py.) -/
def hasEmptyResolvent (S : List SClause) : Prop :=
  ∃ c1 ∈ S, ∃ c2 ∈ S, c1 ≠ c2 ∧ resolve_pair c1 c2 = some []

instance (S : List SClause) : Decidable (hasEmptyResolvent S) := by
  unfold hasEmptyResolvent; infer_instance

/-- One merge step of the loop: `clauses |= new`. -/
def resRound (S : List SClause) : List SClause :=
  S ++ dedupFirst ((resolventsOf S).filter (fun r => r ∉ S))

/-- resolution.py `resolution`, with fuel: each round first returns
`false` if any resolvent of the round is empty, then returns `true` if no
new clause appeared (`new.issubset(clauses)`), else merges and repeats. -/
def resolution : Nat → List SClause → Option Bool
  | 0, _ => none
  | n + 1, S =>
      if hasEmptyResolvent S then some false
      else if ∀ r ∈ resolventsOf S, r ∈ S then some true
      else resolution n (resRound S)

/-- The deduplicated clause set resolution.py builds from its input
(`set(frozenset(c) for c in clauses)`). -/
def toClauseSet (F : Formula) : List SClause :=
  dedupFirst (F.map normClause)

/-- Clauses derivable from the working set `S` by finitely many
`resolve_pair` steps between distinct clauses. -/
inductive Deriv (S : List SClause) : SClause → Prop
  | mem {c : SClause} : c ∈ S → Deriv S c
  | step {c1 c2 r : SClause} : Deriv S c1 → Deriv S c2 → c1 ≠ c2 →
      resolve_pair c1 c2 = some r → Deriv S r

/-- The empty clause arises from at least one `resolve_pair` step between
distinct derivable clauses. -/
def EmptyDerivable (S : List SClause) : Prop :=
  ∃ c1 c2, Deriv S c1 ∧ Deriv S c2 ∧ c1 ≠ c2 ∧ resolve_pair c1 c2 = some []

/-! ### Basic lemmas -/

theorem mem_dedupFirstGo [DecidableEq α] (seen : List α) (l : List α) (x : α) :
    x ∈ dedupFirstGo seen l ↔ x ∈ l ∧ x ∉ seen := by
  induction l generalizing seen with
  | nil => simp [dedupFirstGo]
  | cons a t ih =>
      by_cases ha : a ∈ seen
      · rw [dedupFirstGo, if_pos ha, ih]
        constructor
        · rintro ⟨h1, h2⟩; exact ⟨List.mem_cons_of_mem _ h1, h2⟩
        · rintro ⟨h1, h2⟩
          rcases List.mem_cons.mp h1 with rfl | h1
          · exact absurd ha h2
          · exact ⟨h1, h2⟩
      · rw [dedupFirstGo, if_neg ha]
        constructor
        · intro hx
          rcases List.mem_cons.mp hx with rfl | hx
          · exact ⟨List.mem_cons_self _ _, ha⟩
          · obtain ⟨h1, h2⟩ := (ih _).mp hx
            exact ⟨List.mem_cons_of_mem _ h1,
              fun hs => h2 (List.mem_cons_of_mem _ hs)⟩
        · rintro ⟨h1, h2⟩
          rcases List.mem_cons.mp h1 with rfl | h1
          · exact List.mem_cons_self _ _
          · by_cases hxa : x = a
            · exact hxa ▸ List.mem_cons_self _ _
            · refine List.mem_cons_of_mem _ ((ih _).mpr ⟨h1, ?_⟩)
              intro hs
              rcases List.mem_cons.mp hs with rfl | hs
              · exact hxa rfl
              · exact h2 hs

theorem mem_dedupFirst [DecidableEq α] (l : List α) (x : α) :
    x ∈ dedupFirst l ↔ x ∈ l := by
  simp [dedupFirst, mem_dedupFirstGo]

theorem natAbs_eq_natAbs_cases {a b : Int} (h : a.natAbs = b.natAbs) :
    a = b ∨ a = -b := Int.natAbs_eq_natAbs_iff.mp h

/-- Satisfaction restricts to any list of clauses drawn from `F`. -/
theorem sat_of_forall_mem {F G : Formula} (hsub : ∀ c ∈ G, c ∈ F) (h : Sat F) :
    Sat G := by
  obtain ⟨v, hv⟩ := h
  exact ⟨v, fun c hc => hv c (hsub c hc)⟩

/-- The assignment that forces literal `p` to hold and leaves every other
variable as in `v`. -/
def flipTo (v : Int → Bool) (p : Int) : Int → Bool :=
  fun x => if x = (p.natAbs : Int) then decide (0 < p) else v x

theorem litHolds_flipTo_self (v : Int → Bool) {p : Int} (hp : p ≠ 0) :
    litHolds (flipTo v p) p = true := by
  rcases lt_trichotomy 0 p with h | h | h
  · have : p = (p.natAbs : Int) := by omega
    simp [litHolds, flipTo, h, ← this]
  · omega
  · have h1 : ¬ (0:Int) < p := by omega
    have : -p = (p.natAbs : Int) := by omega
    simp [litHolds, flipTo, h1, ← this, h]

theorem litHolds_flipTo_other (v : Int → Bool) {p l : Int}
    (h : l.natAbs ≠ p.natAbs) : litHolds (flipTo v p) l = litHolds v l := by
  by_cases hl : 0 < l
  · have h1 : l ≠ (p.natAbs : Int) := by omega
    simp only [litHolds, if_pos hl, flipTo, if_neg h1]
  · have h1 : -l ≠ (p.natAbs : Int) := by omega
    simp only [litHolds, if_neg hl, flipTo, if_neg h1]

/-! ### dp.py: structural lemmas -/

theorem find_unit_clause_mem {F : Formula} {u : Int}
    (h : find_unit_clause F = some u) : [u] ∈ F := by
  induction F with
  | nil => simp [find_unit_clause] at h
  | cons c rest ih =>
      rw [find_unit_clause] at h
      by_cases hc : c.length = 1
      · obtain ⟨a, rfl⟩ := List.length_eq_one.mp hc
        rw [if_pos hc] at h
        obtain rfl : a = u := by simpa [List.headI] using h
        exact List.mem_cons_self _ _
      · rw [if_neg hc] at h
        exact List.mem_cons_of_mem _ (ih h)

/-- Exactly when does `unit_propagate` collapse: some clause avoids `u`,
contains `-u`, and loses all its literals when `-u` is removed. -/
theorem unit_propagate_go_eq_none {u : Int} {F : Formula} :
    unit_propagate_go u F = none ↔
      ∃ c ∈ F, u ∉ c ∧ -u ∈ c ∧ removeLit c (-u) = [] := by
  induction F with
  | nil => simp [unit_propagate_go]
  | cons c rest ih =>
      rw [unit_propagate_go]
      by_cases hu : u ∈ c
      · rw [if_pos hu, ih]
        constructor
        · rintro ⟨d, hd, h⟩; exact ⟨d, List.mem_cons_of_mem _ hd, h⟩
        · rintro ⟨d, hd, h⟩
          rcases List.mem_cons.mp hd with rfl | hd
          · exact absurd hu h.1
          · exact ⟨d, hd, h⟩
      · rw [if_neg hu]
        by_cases hnu : -u ∈ c
        · rw [if_pos hnu]
          by_cases hr : removeLit c (-u) = []
          · rw [if_pos hr]
            exact ⟨fun _ => ⟨c, List.mem_cons_self _ _, hu, hnu, hr⟩, fun _ => rfl⟩
          · rw [if_neg hr]
            rcases hgo : unit_propagate_go u rest with _ | G
            · rw [hgo] at ih
              constructor
              · intro _
                obtain ⟨d, hd, h⟩ := ih.mp rfl
                exact ⟨d, List.mem_cons_of_mem _ hd, h⟩
              · intro _; rfl
            · rw [hgo] at ih
              constructor
              · intro hcontra; exact absurd hcontra (by simp)
              · rintro ⟨d, hd, h⟩
                rcases List.mem_cons.mp hd with rfl | hd
                · exact absurd h.2.2 hr
                · exact absurd (ih.mpr ⟨d, hd, h⟩) (by simp)
        · rw [if_neg hnu]
          rcases hgo : unit_propagate_go u rest with _ | G
          · rw [hgo] at ih
            constructor
            · intro _
              obtain ⟨d, hd, h⟩ := ih.mp rfl
              exact ⟨d, List.mem_cons_of_mem _ hd, h⟩
            · intro _; rfl
          · rw [hgo] at ih
            constructor
            · intro hcontra; exact absurd hcontra (by simp)
            · rintro ⟨d, hd, h⟩
              rcases List.mem_cons.mp hd with rfl | hd
              · exact absurd h.2.1 hnu
              · exact absurd (ih.mpr ⟨d, hd, h⟩) (by simp)

/-- When no clause collapses, `unit_propagate` is exactly "drop the
clauses with `u`, delete `-u` everywhere else". -/
theorem unit_propagate_go_eq_some {u : Int} {F F' : Formula}
    (h : unit_propagate_go u F = some F') :
    F' = (F.filter (fun c => u ∉ c)).map (fun c => removeLit c (-u)) := by
  induction F generalizing F' with
  | nil =>
      rw [unit_propagate_go] at h
      cases h; rfl
  | cons c rest ih =>
      rw [unit_propagate_go] at h
      by_cases hu : u ∈ c
      · rw [if_pos hu] at h
        rw [List.filter_cons_of_neg (by simpa using hu)]
        exact ih h
      · rw [if_neg hu] at h
        rw [List.filter_cons_of_pos (by simpa using hu), List.map_cons]
        by_cases hnu : -u ∈ c
        · rw [if_pos hnu] at h
          by_cases hr : removeLit c (-u) = []
          · rw [if_pos hr] at h; cases h
          · rw [if_neg hr] at h
            obtain ⟨G, hG, rfl⟩ := Option.map_eq_some.mp h
            rw [ih hG]
        · rw [if_neg hnu] at h
          obtain ⟨G, hG, rfl⟩ := Option.map_eq_some.mp h
          rw [ih hG, removeLit_of_not_mem hnu]

/-- `find_pure_literal` facts: the returned literal occurs in `F`, and
every occurrence of its variable is the literal itself. -/
theorem find_pure_literal_spec {F : Formula} {p : Int}
    (h : find_pure_literal F = some p) :
    (∃ c ∈ F, p ∈ c) ∧ (∀ c ∈ F, ∀ l ∈ c, l.natAbs = p.natAbs → l = p) := by
  rw [find_pure_literal] at h
  rcases hfind : (dpVarOrder F).find? (fun v => ! (dpPosOcc F v && dpNegOcc F v)) with _ | v
  · rw [hfind] at h; exact absurd h (by simp)
  · rw [hfind] at h
    have hv : v ∈ dpVarOrder F := List.mem_of_find?_eq_some hfind
    have hpred := List.find?_some (p := fun v => ! (dpPosOcc F v && dpNegOcc F v)) hfind
    have hnot : ¬ (dpPosOcc F v = true ∧ dpNegOcc F v = true) := by
      intro ⟨h1, h2⟩
      have hb : (! (dpPosOcc F v && dpNegOcc F v)) = true := hpred
      rw [h1, h2] at hb; simp at hb
    obtain ⟨l0, hl0F, hl0v⟩ : ∃ l0, (∃ c ∈ F, l0 ∈ c) ∧ l0.natAbs = v := by
      rw [dpVarOrder, mem_dedupFirst, List.mem_map] at hv
      obtain ⟨l0, hl0, hv⟩ := hv
      rw [List.mem_flatten] at hl0
      obtain ⟨c, hc, hl0⟩ := hl0
      exact ⟨l0, ⟨c, hc, hl0⟩, hv⟩
    obtain rfl : p = if dpPosOcc F v then (v : Int) else -(v : Int) := by
      cases h; rfl
    have hocc : ∀ q ∈ F, ∀ l ∈ q, l.natAbs = v →
        l = (if dpPosOcc F v then (v : Int) else -(v : Int)) := by
      intro q hq l hl hlv
      by_cases hpos : dpPosOcc F v
      · rw [if_pos hpos]
        by_cases hlpos : 0 < l
        · omega
        · exfalso
          apply hnot
          refine ⟨hpos, ?_⟩
          rw [dpNegOcc, List.any_eq_true]
          exact ⟨q, hq, List.any_eq_true.mpr ⟨l, hl, by simp [hlpos, hlv]⟩⟩
      · rw [if_neg hpos]
        by_cases hlpos : 0 < l
        · exfalso
          apply hpos
          rw [dpPosOcc, List.any_eq_true]
          exact ⟨q, hq, List.any_eq_true.mpr ⟨l, hl, by simp [hlpos, hlv]⟩⟩
        · omega
    constructor
    · obtain ⟨c, hc, hl0c⟩ := hl0F
      exact ⟨c, hc, hocc c hc l0 hl0c hl0v ▸ hl0c⟩
    · intro c hc l hl hlv
      apply hocc c hc l hl
      rw [hlv]
      by_cases hpos : dpPosOcc F v <;> simp [hpos]

/-- The variable of a pure literal occurs in the formula. -/
theorem find_pure_literal_occurs {F : Formula} {p : Int}
    (h : find_pure_literal F = some p) : ∃ c ∈ F, p ∈ c :=
  (find_pure_literal_spec h).1

/-- Membership in the kept resolvents of an elimination step. -/
theorem mem_dpResolvents {F : Formula} {var : Int} {c : Clause} :
    c ∈ dpResolvents F var ↔
      ∃ C ∈ F, ∃ D ∈ F, var ∈ C ∧ -var ∈ D ∧
        c = dedupFirst (removeLit C var ++ removeLit D (-var)) ∧
        hasComplPair c = false := by
  rw [dpResolvents]
  constructor
  · intro hres
    obtain ⟨L, hL, hcL⟩ := List.mem_flatten.mp hres
    obtain ⟨C, hCpos, rfl⟩ := List.mem_map.mp hL
    obtain ⟨D, hDneg, hif⟩ := List.mem_filterMap.mp hcL
    obtain ⟨hC, hCv⟩ := List.mem_filter.mp hCpos
    obtain ⟨hD, hDv⟩ := List.mem_filter.mp hDneg
    simp only at hif
    by_cases ht : hasComplPair (dedupFirst (removeLit C var ++ removeLit D (-var)))
    · rw [if_pos ht] at hif; cases hif
    · rw [if_neg ht] at hif
      cases hif
      refine ⟨C, hC, D, hD, by simpa using hCv, by simpa using hDv, rfl, ?_⟩
      exact Bool.not_eq_true _ ▸ ht
  · rintro ⟨C, hC, D, hD, hCv, hDv, rfl, ht⟩
    refine List.mem_flatten.mpr ⟨_, List.mem_map.mpr
      ⟨C, List.mem_filter.mpr ⟨hC, by simpa using hCv⟩, rfl⟩, ?_⟩
    refine List.mem_filterMap.mpr ⟨D, List.mem_filter.mpr ⟨hD, by simpa using hDv⟩, ?_⟩
    simp only
    rw [if_neg (by rw [ht]; exact Bool.false_ne_true)]

/-- Membership in the result of an elimination step: a clause is either an
untouched clause of `F` or a clean resolvent of a positive and a negative
clause. -/
theorem mem_dpElimWith {F : Formula} {var : Int} {c : Clause} :
    c ∈ dpElimWith F var ↔
      (c ∈ F ∧ var ∉ c ∧ -var ∉ c) ∨
      (∃ C ∈ F, ∃ D ∈ F, var ∈ C ∧ -var ∈ D ∧
        c = dedupFirst (removeLit C var ++ removeLit D (-var)) ∧
        hasComplPair c = false) := by
  rw [dpElimWith, List.mem_append, mem_dpResolvents]
  constructor
  · rintro (hrest | hres)
    · obtain ⟨hc, h1⟩ := List.mem_filter.mp hrest
      exact Or.inl ⟨hc, by simpa using h1⟩
    · exact Or.inr hres
  · rintro (⟨hc, h1, h2⟩ | hres)
    · refine Or.inl (List.mem_filter.mpr ⟨hc, ?_⟩)
      simp [h1, h2]
    · exact Or.inr hres

theorem WF_filter {F : Formula} (p : Clause → Bool) (h : WF F) :
    WF (F.filter p) :=
  fun c hc => h c (List.mem_of_mem_filter hc)

theorem WF_unit_propagate {F : Formula} {u : Int} (h : WF F) :
    WF (unit_propagate F u) := by
  rw [unit_propagate]
  rcases hgo : unit_propagate_go u F with _ | F'
  · intro c hc l hl
    rcases List.mem_singleton.mp hc with rfl
    cases hl
  · rw [unit_propagate_go_eq_some hgo]
    intro c hc l hl
    obtain ⟨d, hd, rfl⟩ := List.mem_map.mp hc
    exact h d (List.mem_of_mem_filter hd) l (mem_removeLit.mp hl).1

theorem WF_dpElimWith {F : Formula} {var : Int} (h : WF F) :
    WF (dpElimWith F var) := by
  intro c hc l hl
  rcases mem_dpElimWith.mp hc with ⟨hc, _⟩ | ⟨C, hC, D, hD, _, _, rfl, _⟩
  · exact h c hc l hl
  · rw [mem_dedupFirst, List.mem_append, mem_removeLit, mem_removeLit] at hl
    rcases hl with ⟨hl, _⟩ | ⟨hl, _⟩
    · exact h C hC l hl
    · exact h D hD l hl

/-- A true literal's negation is false (for nonzero literals). -/
theorem litHolds_false_of_neg_true {v : Int → Bool} {l : Int} (hl : l ≠ 0)
    (h : litHolds v l = true) : litHolds v (-l) = false := by
  rw [litHolds_neg v l hl, h]; rfl

/-- Soundness and completeness of the pure-literal step of dp.py. -/
theorem pure_equiv {F : Formula} {p : Int} (hWF : WF F)
    (hp : find_pure_literal F = some p) :
    Sat F ↔ Sat (F.filter (fun c => p ∉ c)) := by
  obtain ⟨⟨c0, hc0, hpc0⟩, hpure⟩ := find_pure_literal_spec hp
  have hp0 : p ≠ 0 := hWF c0 hc0 p hpc0
  constructor
  · exact sat_of_forall_mem (fun c hc => List.mem_of_mem_filter hc)
  · rintro ⟨v, hv⟩
    refine ⟨flipTo v p, fun c hc => ?_⟩
    by_cases hpc : p ∈ c
    · exact ⟨p, hpc, litHolds_flipTo_self v hp0⟩
    · have hcf : c ∈ F.filter (fun c => p ∉ c) :=
        List.mem_filter.mpr ⟨hc, by simpa using hpc⟩
      obtain ⟨l, hl, hh⟩ := hv c hcf
      have hab : l.natAbs ≠ p.natAbs := by
        intro he
        exact hpc ((hpure c hc l hl he) ▸ hl)
      exact ⟨l, hl, (litHolds_flipTo_other v hab).trans hh⟩

/-- Soundness and completeness of the unit-propagation step of dp.py. -/
theorem unit_equiv {F : Formula} {u : Int} (hWF : WF F)
    (hu : find_unit_clause F = some u) :
    Sat F ↔ Sat (unit_propagate F u) := by
  have humem : [u] ∈ F := find_unit_clause_mem hu
  have hu0 : u ≠ 0 := hWF [u] humem u (List.mem_singleton_self u)
  rw [unit_propagate]
  rcases hgo : unit_propagate_go u F with _ | F'
  · obtain ⟨c, hc, hcu, hcnu, hcr⟩ := unit_propagate_go_eq_none.mp hgo
    constructor
    · rintro ⟨v, hv⟩
      obtain ⟨l, hl, hh⟩ := hv c hc
      have hh'u : litHolds v u = true := by
        obtain ⟨l', hl', hh'⟩ := hv [u] humem
        rw [List.mem_singleton] at hl'
        exact hl' ▸ hh'
      have hlnu : l = -u := removeLit_eq_nil.mp hcr l hl
      rw [hlnu, litHolds_false_of_neg_true hu0 hh'u] at hh
      cases hh
    · rintro ⟨v, hv⟩
      obtain ⟨l, hl, _⟩ := hv [] (List.mem_singleton_self _)
      cases hl
  · rw [unit_propagate_go_eq_some hgo]
    constructor
    · rintro ⟨v, hv⟩
      refine ⟨v, fun c hc => ?_⟩
      obtain ⟨d, hd, rfl⟩ := List.mem_map.mp hc
      have hdF : d ∈ F := List.mem_of_mem_filter hd
      obtain ⟨l, hl, hh⟩ := hv d hdF
      have hh'u : litHolds v u = true := by
        obtain ⟨l', hl', hh'⟩ := hv [u] humem
        rw [List.mem_singleton] at hl'
        exact hl' ▸ hh'
      have hlnu : l ≠ -u := by
        rintro rfl
        rw [litHolds_false_of_neg_true hu0 hh'u] at hh
        cases hh
      exact ⟨l, mem_removeLit.mpr ⟨hl, hlnu⟩, hh⟩
    · rintro ⟨v, hv⟩
      refine ⟨flipTo v u, fun c hc => ?_⟩
      by_cases huc : u ∈ c
      · exact ⟨u, huc, litHolds_flipTo_self v hu0⟩
      · have hcf : c ∈ F.filter (fun c => u ∉ c) :=
          List.mem_filter.mpr ⟨hc, by simpa using huc⟩
        obtain ⟨l, hl, hh⟩ := hv _ (List.mem_map.mpr ⟨c, hcf, rfl⟩)
        obtain ⟨hlc, hlnu⟩ := mem_removeLit.mp hl
        have hlu : l ≠ u := fun he => huc (he ▸ hlc)
        have hab : l.natAbs ≠ u.natAbs := by
          intro he
          rcases natAbs_eq_natAbs_cases he with h | h
          · exact hlu h
          · exact hlnu h
        exact ⟨l, hlc, (litHolds_flipTo_other v hab).trans hh⟩

/-- Soundness and completeness of the resolution-elimination step of
dp.py: eliminating a (positive) pivot preserves satisfiability both ways.
The proof allows clauses containing the pivot in both polarities; the
tautology filter discards exactly the resolvents a falsifying assignment
could never falsify. -/
theorem elim_equiv {F : Formula} {var : Int} (hWF : WF F) (hvar : 0 < var) :
    Sat F ↔ Sat (dpElimWith F var) := by
  have hvar0 : var ≠ 0 := by omega
  have hnvar0 : -var ≠ 0 := by omega
  constructor
  · rintro ⟨v, hv⟩
    refine ⟨v, fun c hc => ?_⟩
    rcases mem_dpElimWith.mp hc with ⟨hcF, _, _⟩ | ⟨C, hC, D, hD, hCv, hDv, rfl, ht⟩
    · exact hv c hcF
    · obtain ⟨l1, hl1, hh1⟩ := hv C hC
      by_cases h1v : l1 = var
      · have hvarT : litHolds v var = true := h1v ▸ hh1
        obtain ⟨l2, hl2, hh2⟩ := hv D hD
        have hl2v : l2 ≠ -var := by
          rintro rfl
          rw [litHolds_false_of_neg_true hvar0 hvarT] at hh2
          cases hh2
        refine ⟨l2, ?_, hh2⟩
        rw [mem_dedupFirst, List.mem_append]
        exact Or.inr (mem_removeLit.mpr ⟨hl2, hl2v⟩)
      · refine ⟨l1, ?_, hh1⟩
        rw [mem_dedupFirst, List.mem_append]
        exact Or.inl (mem_removeLit.mpr ⟨hl1, h1v⟩)
  · rintro ⟨v, hv⟩
    by_cases hB : ∃ D ∈ F, -var ∈ D ∧ ∀ l ∈ D, l ≠ -var → litHolds v l = false
    · by_cases hA : ∃ C ∈ F, var ∈ C ∧ ∀ l ∈ C, l ≠ var → litHolds v l = false
      · -- both a positive and a negative clause are otherwise false: the
        -- resolvent they induce is wholly false, non-tautological, and a
        -- member of the step's output, contradicting `hv`.
        exfalso
        obtain ⟨C0, hC0, hC0v, hCall⟩ := hA
        obtain ⟨D0, hD0, hD0v, hDall⟩ := hB
        have hRfalse : ∀ l ∈ dedupFirst (removeLit C0 var ++ removeLit D0 (-var)),
            litHolds v l = false := by
          intro l hl
          rw [mem_dedupFirst, List.mem_append, mem_removeLit, mem_removeLit] at hl
          rcases hl with ⟨hl, hne⟩ | ⟨hl, hne⟩
          · exact hCall l hl hne
          · exact hDall l hl hne
        have hRwf : ∀ l ∈ dedupFirst (removeLit C0 var ++ removeLit D0 (-var)),
            l ≠ 0 := by
          intro l hl
          rw [mem_dedupFirst, List.mem_append, mem_removeLit, mem_removeLit] at hl
          rcases hl with ⟨hl, _⟩ | ⟨hl, _⟩
          · exact hWF C0 hC0 l hl
          · exact hWF D0 hD0 l hl
        have ht : hasComplPair (dedupFirst (removeLit C0 var ++ removeLit D0 (-var)))
            = false := by
          rw [hasComplPair]
          by_contra hcontra
          rw [Bool.not_eq_false, List.any_eq_true] at hcontra
          obtain ⟨l, hl, hmem⟩ := hcontra
          rw [decide_eq_true_eq] at hmem
          have h1 := hRfalse l hl
          have h2 := hRfalse (-l) hmem
          rw [litHolds_neg v l (hRwf l hl), h1] at h2
          cases h2
        obtain ⟨l, hl, hh⟩ := hv _ (mem_dpElimWith.mpr
          (Or.inr ⟨C0, hC0, D0, hD0, hC0v, hD0v, rfl, ht⟩))
        rw [hRfalse l hl] at hh
        cases hh
      · -- no positive clause is otherwise-false: set the pivot false.
        push_neg at hA
        refine ⟨flipTo v (-var), fun c hc => ?_⟩
        by_cases h2 : -var ∈ c
        · exact ⟨-var, h2, litHolds_flipTo_self v hnvar0⟩
        · by_cases h1 : var ∈ c
          · obtain ⟨l, hl, hlne, hh⟩ := hA c hc h1
            have hab : l.natAbs ≠ (-var).natAbs := by
              intro he
              rcases natAbs_eq_natAbs_cases he with h | h
              · rw [h] at hl; exact h2 hl
              · rw [neg_neg] at h; exact hlne h
            exact ⟨l, hl, (litHolds_flipTo_other v hab).trans (Bool.not_eq_false _ ▸ hh)⟩
          · obtain ⟨l, hl, hh⟩ := hv c (mem_dpElimWith.mpr (Or.inl ⟨hc, h1, h2⟩))
            have hab : l.natAbs ≠ (-var).natAbs := by
              intro he
              rcases natAbs_eq_natAbs_cases he with h | h
              · rw [h] at hl; exact h2 hl
              · rw [neg_neg] at h; rw [h] at hl; exact h1 hl
            exact ⟨l, hl, (litHolds_flipTo_other v hab).trans hh⟩
    · -- no negative clause is otherwise-false: set the pivot true.
      push_neg at hB
      refine ⟨flipTo v var, fun c hc => ?_⟩
      by_cases h1 : var ∈ c
      · exact ⟨var, h1, litHolds_flipTo_self v hvar0⟩
      · by_cases h2 : -var ∈ c
        · obtain ⟨l, hl, hlne, hh⟩ := hB c hc h2
          have hab : l.natAbs ≠ var.natAbs := by
            intro he
            rcases natAbs_eq_natAbs_cases he with h | h
            · rw [h] at hl; exact h1 hl
            · exact hlne h
          exact ⟨l, hl, (litHolds_flipTo_other v hab).trans (Bool.not_eq_false _ ▸ hh)⟩
        · obtain ⟨l, hl, hh⟩ := hv c (mem_dpElimWith.mpr (Or.inl ⟨hc, h1, h2⟩))
          have hab : l.natAbs ≠ var.natAbs := by
            intro he
            rcases natAbs_eq_natAbs_cases he with h | h
            · rw [h] at hl; exact h1 hl
            · rw [h] at hl; exact h2 hl
          exact ⟨l, hl, (litHolds_flipTo_other v hab).trans hh⟩

/-- The pivot of dp.py's elimination step is positive whenever the guards
before it hold. -/
theorem pivot_pos {F : Formula} (hne : ¬ F.isEmpty = true)
    (hnil : ¬ F.any (fun c => c.isEmpty) = true) (hWF : WF F) :
    0 < (F.headI.headI.natAbs : Int) := by
  cases F with
  | nil => simp at hne
  | cons c0 rest =>
      cases c0 with
      | nil => simp [List.any_cons] at hnil
      | cons l0 c0t =>
          have : l0 ≠ 0 :=
            hWF (l0 :: c0t) (List.mem_cons_self _ _) l0 (List.mem_cons_self _ _)
          simp only [List.headI]
          omega

/-- Full functional correctness of dp.py `dp_eliminate`: whenever the
fuelled run returns a verdict on a well-formed formula, that verdict is
`true` exactly when the formula is satisfiable. -/
theorem dp_correct (n : Nat) :
    ∀ {F : Formula} {b : Bool}, WF F → dp_eliminate n F = some b →
      (b = true ↔ Sat F) := by
  induction n with
  | zero => intro F b _ h; cases h
  | succ n ih =>
      intro F b hWF h
      rw [dp_eliminate] at h
      by_cases h1 : F.any (fun c => c.isEmpty) = true
      · rw [if_pos h1] at h
        obtain rfl : b = false := (Option.some_inj.mp h).symm
        have : ¬ Sat F := by
          rintro ⟨v, hv⟩
          obtain ⟨c, hc, hce⟩ := List.any_eq_true.mp h1
          rw [List.isEmpty_iff] at hce
          subst hce
          obtain ⟨l, hl, _⟩ := hv [] hc
          cases hl
        simp [this]
      · rw [if_neg h1] at h
        by_cases h2 : F.isEmpty = true
        · rw [if_pos h2] at h
          obtain rfl : b = true := (Option.some_inj.mp h).symm
          rw [List.isEmpty_iff] at h2
          subst h2
          simp only [true_iff]
          exact ⟨fun _ => true, by rintro c ⟨⟩⟩
        · rw [if_neg h2] at h
          rcases hp : find_pure_literal F with _ | p
          · rw [hp] at h
            rcases hu : find_unit_clause F with _ | u
            · rw [hu] at h
              have hpiv := pivot_pos h2 h1 hWF
              rw [ih (WF_dpElimWith hWF) h]
              exact (elim_equiv hWF hpiv).symm
            · rw [hu] at h
              rw [ih (WF_unit_propagate hWF) h]
              exact (unit_equiv hWF hu).symm
          · rw [hp] at h
            rw [ih (WF_filter _ hWF) h]
            exact (pure_equiv hWF hp).symm

/-! ### dp.py: termination measure

The spec claims each recursive call of `dp_eliminate` strictly shrinks the
set of active variables.  That is false (see the C8 counterexample): an
elimination step on a pivot occurring in a clause together with its
negation can retain the pivot variable.  What does decrease strictly is
the sum of the number of clauses containing a complementary pair and the
number of active variables. -/

/-- Number of clauses containing some literal together with its negation. -/
def dirtyCount (F : Formula) : Nat := (F.filter hasComplPair).length

/-- The set of active variables of a formula. -/
def varsOf (F : Formula) : Finset Nat := (F.flatten.map Int.natAbs).toFinset

/-- The decreasing measure of `dp_eliminate`. -/
def dpMeasure (F : Formula) : Nat := dirtyCount F + (varsOf F).card

theorem mem_varsOf {F : Formula} {v : Nat} :
    v ∈ varsOf F ↔ ∃ c ∈ F, ∃ l ∈ c, l.natAbs = v := by
  simp only [varsOf, List.mem_toFinset, List.mem_map, List.mem_flatten]
  constructor
  · rintro ⟨l, ⟨c, hc, hl⟩, hv⟩; exact ⟨c, hc, l, hl, hv⟩
  · rintro ⟨c, hc, l, hl, hv⟩; exact ⟨l, ⟨c, hc, hl⟩, hv⟩

theorem dirtyCount_filter_le (F : Formula) (p : Clause → Bool) :
    dirtyCount (F.filter p) ≤ dirtyCount F :=
  ((List.filter_sublist F).filter hasComplPair).length_le

theorem dirtyCount_append (A B : Formula) :
    dirtyCount (A ++ B) = dirtyCount A + dirtyCount B := by
  rw [dirtyCount, List.filter_append, List.length_append]; rfl

/-- Removing a dirty clause makes the dirty count strictly smaller. -/
theorem dirtyCount_filter_lt {F : Formula} {c0 : Clause} (p : Clause → Bool)
    (hc0 : c0 ∈ F) (hd : hasComplPair c0 = true) (hp : p c0 = false) :
    dirtyCount (F.filter p) < dirtyCount F := by
  induction F with
  | nil => cases hc0
  | cons c rest ih =>
      rcases List.mem_cons.mp hc0 with rfl | hc0
      · rw [List.filter_cons_of_neg (by simp [hp])]
        calc dirtyCount (rest.filter p) ≤ dirtyCount rest :=
              dirtyCount_filter_le rest p
          _ < dirtyCount (c0 :: rest) := by
              simp only [dirtyCount]
              rw [List.filter_cons_of_pos hd]
              exact Nat.lt_succ_of_le (le_refl _)
      · by_cases hpc : p c = true
        · rw [List.filter_cons_of_pos hpc]
          by_cases hdc : hasComplPair c = true
          · simp only [dirtyCount]
            rw [List.filter_cons_of_pos hdc, List.filter_cons_of_pos hdc]
            exact Nat.succ_lt_succ (ih hc0)
          · simp only [dirtyCount]
            rw [List.filter_cons_of_neg (by simpa using hdc),
              List.filter_cons_of_neg (by simpa using hdc)]
            exact ih hc0
        · rw [List.filter_cons_of_neg (by simpa using hpc)]
          by_cases hdc : hasComplPair c = true
          · calc dirtyCount (rest.filter p) < dirtyCount rest := ih hc0
              _ ≤ dirtyCount (c :: rest) := by
                  simp only [dirtyCount]
                  rw [List.filter_cons_of_pos hdc]
                  exact Nat.le_succ _
          · simp only [dirtyCount]
            rw [List.filter_cons_of_neg (by simpa using hdc)]
            exact ih hc0

/-- Sublists have no more dirty clauses, mapped by a dirtiness-reflecting
function. -/
theorem dirtyCount_map_le {F : Formula} {g : Clause → Clause}
    (hg : ∀ c, hasComplPair (g c) = true → hasComplPair c = true) :
    dirtyCount (F.map g) ≤ dirtyCount F := by
  induction F with
  | nil => exact le_refl _
  | cons c rest ih =>
      rw [List.map_cons]
      by_cases hgc : hasComplPair (g c) = true
      · simp only [dirtyCount]
        rw [List.filter_cons_of_pos hgc, List.filter_cons_of_pos (hg c hgc)]
        exact Nat.succ_le_succ ih
      · simp only [dirtyCount]
        rw [List.filter_cons_of_neg (by simpa using hgc)]
        by_cases hdc : hasComplPair c = true
        · calc (List.filter hasComplPair (rest.map g)).length
              ≤ dirtyCount rest := ih
            _ ≤ (List.filter hasComplPair (c :: rest)).length := by
                rw [List.filter_cons_of_pos hdc]
                exact Nat.le_succ _
        · rw [List.filter_cons_of_neg (by simpa using hdc)]
          exact ih

/-- A complementary pair survives literal removal backwards. -/
theorem hasComplPair_removeLit {c : Clause} {x : Int}
    (h : hasComplPair (removeLit c x) = true) : hasComplPair c = true := by
  rw [hasComplPair, List.any_eq_true] at h ⊢
  obtain ⟨l, hl, hmem⟩ := h
  rw [decide_eq_true_eq, mem_removeLit] at hmem
  exact ⟨l, (mem_removeLit.mp hl).1, decide_eq_true_eq.mpr hmem.1⟩

/-- The pure-literal step strictly shrinks the variable set. -/
theorem varsOf_pure_lt {F : Formula} {p : Int}
    (hp : find_pure_literal F = some p) :
    (varsOf (F.filter (fun c => p ∉ c))).card < (varsOf F).card := by
  obtain ⟨⟨c0, hc0, hpc0⟩, hpure⟩ := find_pure_literal_spec hp
  apply Finset.card_lt_card
  constructor
  · intro v hv
    obtain ⟨c, hc, l, hl, rfl⟩ := mem_varsOf.mp hv
    exact mem_varsOf.mpr ⟨c, List.mem_of_mem_filter hc, l, hl, rfl⟩
  · intro hsub
    have h1 : p.natAbs ∈ varsOf F := mem_varsOf.mpr ⟨c0, hc0, p, hpc0, rfl⟩
    obtain ⟨c, hc, l, hl, habs⟩ := mem_varsOf.mp (hsub h1)
    obtain ⟨hcF, hcp⟩ := List.mem_filter.mp hc
    rw [decide_eq_true_eq] at hcp
    exact hcp ((hpure c hcF l hl habs) ▸ hl)

theorem dpMeasure_pure_lt {F : Formula} {p : Int}
    (hp : find_pure_literal F = some p) :
    dpMeasure (F.filter (fun c => p ∉ c)) < dpMeasure F := by
  have h1 := dirtyCount_filter_le F (fun c => decide (p ∉ c))
  have h2 := varsOf_pure_lt hp
  rw [dpMeasure, dpMeasure]
  omega

/-- The unit-propagation step strictly shrinks the measure. -/
theorem dpMeasure_unit_lt {F : Formula} {u : Int}
    (hu : find_unit_clause F = some u) :
    dpMeasure (unit_propagate F u) < dpMeasure F := by
  have humem : [u] ∈ F := find_unit_clause_mem hu
  have huvar : u.natAbs ∈ varsOf F :=
    mem_varsOf.mpr ⟨[u], humem, u, List.mem_singleton_self u, rfl⟩
  rw [unit_propagate]
  rcases hgo : unit_propagate_go u F with _ | F'
  · have h0 : dpMeasure [[]] = 0 := by decide
    rw [h0, dpMeasure]
    have : 0 < (varsOf F).card := Finset.card_pos.mpr ⟨u.natAbs, huvar⟩
    omega
  · have hF' := unit_propagate_go_eq_some hgo
    have h1 : dirtyCount F' ≤ dirtyCount F := by
      rw [hF']
      exact le_trans (dirtyCount_map_le (fun c => hasComplPair_removeLit))
        (dirtyCount_filter_le F _)
    have h2 : (varsOf F').card < (varsOf F).card := by
      rw [hF']
      apply Finset.card_lt_card
      constructor
      · intro v hv
        obtain ⟨c, hc, l, hl, rfl⟩ := mem_varsOf.mp hv
        obtain ⟨d, hd, rfl⟩ := List.mem_map.mp hc
        exact mem_varsOf.mpr
          ⟨d, List.mem_of_mem_filter hd, l, (mem_removeLit.mp hl).1, rfl⟩
      · intro hsub
        obtain ⟨c, hc, l, hl, habs⟩ := mem_varsOf.mp (hsub huvar)
        obtain ⟨d, hd, rfl⟩ := List.mem_map.mp hc
        obtain ⟨hdF, hdu⟩ := List.mem_filter.mp hd
        rw [decide_eq_true_eq] at hdu
        obtain ⟨hld, hlnu⟩ := mem_removeLit.mp hl
        rcases natAbs_eq_natAbs_cases habs with rfl | h
        · exact hdu hld
        · exact hlnu h
    change dpMeasure F' < dpMeasure F
    rw [dpMeasure, dpMeasure]
    omega

/-- Every kept resolvent is clean. -/
theorem dpResolvents_clean {F : Formula} {var : Int} {c : Clause}
    (h : c ∈ dpResolvents F var) : hasComplPair c = false := by
  obtain ⟨C, hC, D, hD, h1, h2, h3, h4⟩ := mem_dpResolvents.mp h
  exact h4

theorem dirtyCount_dpResolvents (F : Formula) (var : Int) :
    dirtyCount (dpResolvents F var) = 0 := by
  rw [dirtyCount, List.filter_eq_nil_iff.mpr, List.length_nil]
  intro c hc
  rw [dpResolvents_clean hc]
  exact Bool.false_ne_true

/-- The elimination step never introduces variables. -/
theorem varsOf_dpElimWith_subset (F : Formula) (var : Int) :
    varsOf (dpElimWith F var) ⊆ varsOf F := by
  intro v hv
  obtain ⟨c, hc, l, hl, rfl⟩ := mem_varsOf.mp hv
  rcases mem_dpElimWith.mp hc with ⟨hcF, _, _⟩ | ⟨C, hC, D, hD, _, _, rfl, _⟩
  · exact mem_varsOf.mpr ⟨c, hcF, l, hl, rfl⟩
  · rw [mem_dedupFirst, List.mem_append, mem_removeLit, mem_removeLit] at hl
    rcases hl with ⟨hl, _⟩ | ⟨hl, _⟩
    · exact mem_varsOf.mpr ⟨C, hC, l, hl, rfl⟩
    · exact mem_varsOf.mpr ⟨D, hD, l, hl, rfl⟩

/-- When no clause carries the pivot in both polarities, the elimination
step erases the pivot variable completely. -/
theorem pivot_not_mem_varsOf_dpElimWith {F : Formula} {var : Int}
    (hclean : ∀ c ∈ F, ¬ (var ∈ c ∧ -var ∈ c)) :
    var.natAbs ∉ varsOf (dpElimWith F var) := by
  intro hv
  obtain ⟨c, hc, l, hl, habs⟩ := mem_varsOf.mp hv
  rcases mem_dpElimWith.mp hc with ⟨hcF, h1, h2⟩ | ⟨C, hC, D, hD, hCv, hDv, rfl, _⟩
  · rcases natAbs_eq_natAbs_cases habs with rfl | rfl
    · exact h1 hl
    · exact h2 hl
  · rw [mem_dedupFirst, List.mem_append, mem_removeLit, mem_removeLit] at hl
    rcases hl with ⟨hl, hne⟩ | ⟨hl, hne⟩
    · rcases natAbs_eq_natAbs_cases habs with rfl | rfl
      · exact hne rfl
      · exact hclean C hC ⟨hCv, hl⟩
    · rcases natAbs_eq_natAbs_cases habs with rfl | rfl
      · exact hclean D hD ⟨hl, hDv⟩
      · exact hne rfl

/-- The elimination step of dp.py strictly shrinks the measure: either it
deletes a clause with a complementary pair, or it erases the pivot. -/
theorem dpMeasure_elim_lt {F : Formula}
    (hne : ¬ F.isEmpty = true) (hnil : ¬ F.any (fun c => c.isEmpty) = true) :
    dpMeasure (dpElimStep F) < dpMeasure F := by
  rw [dpElimStep]
  set var : Int := (F.headI.headI.natAbs : Int) with hvar
  have hdirty_le : dirtyCount (dpElimWith F var) ≤ dirtyCount F := by
    rw [dpElimWith, dirtyCount_append, dirtyCount_dpResolvents]
    have := dirtyCount_filter_le F (fun c => decide (var ∉ c ∧ -var ∉ c))
    omega
  have hvars_le : (varsOf (dpElimWith F var)).card ≤ (varsOf F).card :=
    Finset.card_le_card (varsOf_dpElimWith_subset F var)
  by_cases hd : ∃ c ∈ F, var ∈ c ∧ -var ∈ c
  · obtain ⟨c0, hc0, hc0p, hc0n⟩ := hd
    have hdc0 : hasComplPair c0 = true := by
      rw [hasComplPair, List.any_eq_true]
      exact ⟨var, hc0p, decide_eq_true_eq.mpr hc0n⟩
    have hstrict : dirtyCount (dpElimWith F var) < dirtyCount F := by
      rw [dpElimWith, dirtyCount_append, dirtyCount_dpResolvents]
      have := dirtyCount_filter_lt (fun c => decide (var ∉ c ∧ -var ∉ c))
        hc0 hdc0 (by simp [hc0p])
      omega
    rw [dpMeasure, dpMeasure]
    omega
  · push_neg at hd
    have hpivot_in : var.natAbs ∈ varsOf F := by
      cases F with
      | nil => simp at hne
      | cons c0 rest =>
          cases c0 with
          | nil => simp [List.any_cons] at hnil
          | cons l0 c0t =>
              refine mem_varsOf.mpr ⟨l0 :: c0t, List.mem_cons_self _ _, l0,
                List.mem_cons_self _ _, ?_⟩
              simp [hvar, Int.natAbs_abs]
    have hstrict : (varsOf (dpElimWith F var)).card < (varsOf F).card := by
      apply Finset.card_lt_card
      refine ⟨varsOf_dpElimWith_subset F var, fun hsub => ?_⟩
      exact pivot_not_mem_varsOf_dpElimWith (fun c hc h => hd c hc h.1 h.2)
        (hsub hpivot_in)
    rw [dpMeasure, dpMeasure]
    omega

/-- Totality of dp.py `dp_eliminate`: fuel exceeding the measure always
suffices for a verdict. -/
theorem dp_total (n : Nat) :
    ∀ F : Formula, dpMeasure F < n → (dp_eliminate n F).isSome = true := by
  induction n with
  | zero => intro F h; cases h
  | succ n ih =>
      intro F h
      rw [dp_eliminate]
      by_cases h1 : F.any (fun c => c.isEmpty) = true
      · rw [if_pos h1]; rfl
      · rw [if_neg h1]
        by_cases h2 : F.isEmpty = true
        · rw [if_pos h2]; rfl
        · rw [if_neg h2]
          rcases hp : find_pure_literal F with _ | p
          · rcases hu : find_unit_clause F with _ | u
            · exact ih _ (by have := dpMeasure_elim_lt h2 h1; omega)
            · exact ih _ (by have := dpMeasure_unit_lt hu; omega)
          · exact ih _ (by have := dpMeasure_pure_lt hp; omega)

/-! ### dpll.py: structural lemmas -/

/-- `simplify` on the variable and truth value of a chosen literal `t` is
"drop the clauses containing `t`, delete `-t` everywhere else". -/
theorem simplify_eq_map (F : Formula) (t var : Int) (value : Bool)
    (hsat : (if value then var else -var) = t) :
    simplify F var value = (F.filter (fun c => t ∉ c)).map (fun c => removeLit c (-t)) := by
  have hfalse : (if value then -var else var) = -t := by
    cases value with
    | true => simp at hsat ⊢; omega
    | false => simp at hsat ⊢; omega
  rw [simplify]
  simp only [hsat, hfalse]

theorem WF_simplify {F : Formula} (var : Int) (value : Bool) (h : WF F) :
    WF (simplify F var value) := by
  intro c hc l hl
  simp only [simplify] at hc
  obtain ⟨d, hd, rfl⟩ := List.mem_map.mp hc
  exact h d (List.mem_of_mem_filter hd) l (mem_removeLit.mp hl).1

/-- dpll.py `unit_clause` spec: the returned literal is the single
survivor of some clause and is wholly unassigned. -/
theorem unit_clause_spec {m : Model} {F : Formula} {u : Int}
    (h : unit_clause m F = some u) :
    ∃ c ∈ F, c.filter (fun l => decide ((-l) ∉ m)) = [u] ∧ u ∉ m ∧ -u ∉ m := by
  induction F with
  | nil => cases h
  | cons c rest ih =>
      rw [unit_clause] at h
      by_cases hc : (c.filter (fun l => decide ((-l) ∉ m))).length = 1 ∧
          (c.filter (fun l => decide ((-l) ∉ m))).headI ∉ m ∧
          -(c.filter (fun l => decide ((-l) ∉ m))).headI ∉ m
      · rw [if_pos hc] at h
        obtain rfl : (c.filter (fun l => decide ((-l) ∉ m))).headI = u :=
          Option.some_inj.mp h
        obtain ⟨a, ha⟩ := List.length_eq_one.mp hc.1
        refine ⟨c, List.mem_cons_self _ _, ?_, hc.2.1, hc.2.2⟩
        rw [ha]; rfl
      · rw [if_neg hc] at h
        obtain ⟨d, hd, hspec⟩ := ih h
        exact ⟨d, List.mem_cons_of_mem _ hd, hspec⟩

/-- dpll.py `pure_literal` spec: the returned literal is unassigned and is
the only unassigned shape its variable takes in the formula. -/
theorem pure_literal_spec {F : Formula} {m : Model} {p : Int}
    (h : pure_literal F m = some p) :
    (p ∉ m ∧ -p ∉ m) ∧ (∃ c ∈ F, p ∈ c) ∧
      (∀ c ∈ F, ∀ l ∈ c, l.natAbs = p.natAbs → unassigned m l = true → l = p) := by
  rw [pure_literal] at h
  rcases hfind : (dpllVarOrder F m).find?
      (fun v => ! (dpllPosOcc F m v && dpllNegOcc F m v)) with _ | v
  · rw [hfind] at h; exact absurd h (by simp)
  · rw [hfind] at h
    have hv : v ∈ dpllVarOrder F m := List.mem_of_find?_eq_some hfind
    have hpred := List.find?_some
      (p := fun v => ! (dpllPosOcc F m v && dpllNegOcc F m v)) hfind
    have hnot : ¬ (dpllPosOcc F m v = true ∧ dpllNegOcc F m v = true) := by
      intro ⟨h1, h2⟩
      have hb : (! (dpllPosOcc F m v && dpllNegOcc F m v)) = true := hpred
      rw [h1, h2] at hb; simp at hb
    obtain ⟨l0, hl0F, hl0un, hl0v⟩ :
        ∃ l0, (∃ c ∈ F, l0 ∈ c) ∧ unassigned m l0 = true ∧ l0.natAbs = v := by
      rw [dpllVarOrder, mem_dedupFirst, List.mem_map] at hv
      obtain ⟨l0, hl0, hveq⟩ := hv
      rw [List.mem_filter] at hl0
      obtain ⟨c, hc, hl0c⟩ := List.mem_flatten.mp hl0.1
      exact ⟨l0, ⟨c, hc, hl0c⟩, hl0.2, hveq⟩
    obtain rfl : p = if dpllPosOcc F m v then (v : Int) else -(v : Int) := by
      cases h; rfl
    have hocc : ∀ q ∈ F, ∀ l ∈ q, l.natAbs = v → unassigned m l = true →
        l = (if dpllPosOcc F m v then (v : Int) else -(v : Int)) := by
      intro q hq l hl hlv hlun
      by_cases hpos : dpllPosOcc F m v
      · rw [if_pos hpos]
        by_cases hlpos : 0 < l
        · omega
        · exfalso
          apply hnot
          refine ⟨hpos, ?_⟩
          rw [dpllNegOcc, List.any_eq_true]
          exact ⟨q, hq, List.any_eq_true.mpr ⟨l, hl, by simp [hlun, hlpos, hlv]⟩⟩
      · rw [if_neg hpos]
        by_cases hlpos : 0 < l
        · exfalso
          apply hpos
          rw [dpllPosOcc, List.any_eq_true]
          exact ⟨q, hq, List.any_eq_true.mpr ⟨l, hl, by simp [hlun, hlpos, hlv]⟩⟩
        · omega
    have hl0p : l0 = (if dpllPosOcc F m v then (v : Int) else -(v : Int)) := by
      obtain ⟨c, hc, hl0c⟩ := hl0F
      exact hocc c hc l0 hl0c hl0v hl0un
    have habs : (if dpllPosOcc F m v then (v : Int) else -(v : Int)).natAbs = v := by
      by_cases hpos : dpllPosOcc F m v <;> simp [hpos]
    refine ⟨?_, ?_, ?_⟩
    · rw [← hl0p]
      rw [unassigned, Bool.and_eq_true, decide_eq_true_eq, decide_eq_true_eq] at hl0un
      exact hl0un
    · obtain ⟨c, hc, hl0c⟩ := hl0F
      exact ⟨c, hc, hl0p ▸ hl0c⟩
    · intro c hc l hl hlv hlun
      exact hocc c hc l hl (hlv.trans habs) hlun

/-- dpll.py branch literal spec: it occurs in the formula and is wholly
unassigned. -/
theorem findUnassigned_spec {m : Model} {F : Formula} {l : Int}
    (h : findUnassigned m F = some l) :
    (∃ c ∈ F, l ∈ c) ∧ unassigned m l = true := by
  induction F with
  | nil => cases h
  | cons c rest ih =>
      rw [findUnassigned] at h
      rcases hf : c.find? (unassigned m) with _ | l'
      · rw [hf] at h
        obtain ⟨⟨d, hd, hspec⟩, hun⟩ := ih h
        exact ⟨⟨d, List.mem_cons_of_mem _ hd, hspec⟩, hun⟩
      · rw [hf] at h
        obtain rfl : l' = l := Option.some_inj.mp h
        exact ⟨⟨c, List.mem_cons_self _ _, List.mem_of_find?_eq_some hf⟩,
          List.find?_some hf⟩

/-- When no unassigned literal remains, every literal of every clause is
decided by the model. -/
theorem findUnassigned_eq_none {m : Model} {F : Formula}
    (h : findUnassigned m F = none) :
    ∀ c ∈ F, ∀ l ∈ c, l ∈ m ∨ -l ∈ m := by
  induction F with
  | nil => intro c hc; cases hc
  | cons c rest ih =>
      rw [findUnassigned] at h
      rcases hf : c.find? (unassigned m) with _ | l'
      · rw [hf] at h
        intro d hd l hl
        rcases List.mem_cons.mp hd with rfl | hd
        · have := List.find?_eq_none.mp hf l hl
          rw [unassigned] at this
          simp only [Bool.and_eq_true, decide_eq_true_eq, not_and_or] at this
          rcases this with h1 | h2
          · left; by_contra hx; exact h1 (by simpa using hx)
          · right; by_contra hx; exact h2 (by simpa using hx)
        · exact ih h d hd l hl
      · rw [hf] at h; cases h

/-- A model hitting every clause of the simplified formula and containing
the simplifying literal hits every clause of the original formula. -/
theorem hits_of_simplify {F : Formula} {t : Int} {μ : Model} (ht : t ∈ μ)
    (h : ∀ c' ∈ (F.filter (fun c => t ∉ c)).map (fun c => removeLit c (-t)),
      ∃ l ∈ c', l ∈ μ) :
    ∀ c ∈ F, ∃ l ∈ c, l ∈ μ := by
  intro c hc
  by_cases htc : t ∈ c
  · exact ⟨t, htc, ht⟩
  · obtain ⟨l, hl, hlμ⟩ := h (removeLit c (-t))
      (List.mem_map.mpr ⟨c, List.mem_filter.mpr ⟨hc, by simpa using htc⟩, rfl⟩)
    exact ⟨l, (mem_removeLit.mp hl).1, hlμ⟩

/-- An assignment satisfying the original formula and the simplifying
literal satisfies the simplified formula. -/
theorem clauseSat_simplify {F : Formula} {v : Int → Bool} {t : Int}
    (ht0 : t ≠ 0) (hht : litHolds v t = true) (hsat : ∀ c ∈ F, clauseSat v c) :
    ∀ c' ∈ (F.filter (fun c => t ∉ c)).map (fun c => removeLit c (-t)),
      clauseSat v c' := by
  intro c' hc'
  obtain ⟨c, hc, rfl⟩ := List.mem_map.mp hc'
  obtain ⟨l, hl, hh⟩ := hsat c (List.mem_of_mem_filter hc)
  have hlne : l ≠ -t := by
    rintro rfl
    rw [litHolds_false_of_neg_true ht0 hht] at hh
    cases hh
  exact ⟨l, mem_removeLit.mpr ⟨hl, hlne⟩, hh⟩

/-- Inserting a fresh nonzero literal keeps a model consistent. -/
theorem consistent_insert {m : Model} {t : Int} (h : Consistent m)
    (h1 : t ∉ m) (h2 : -t ∉ m) (h0 : t ≠ 0) : Consistent (insertLit m t) := by
  intro l hl
  rcases mem_insertLit.mp hl with rfl | hl
  · rw [mem_insertLit]
    push_neg
    exact ⟨by omega, h2⟩
  · rw [mem_insertLit]
    push_neg
    refine ⟨?_, h l hl⟩
    intro he
    apply h2
    rw [show -t = l by omega]
    exact hl

theorem agrees_insert {m : Model} {v : Int → Bool} {t : Int}
    (h : ∀ l ∈ m, litHolds v l = true) (ht : litHolds v t = true) :
    ∀ l ∈ insertLit m t, litHolds v l = true := by
  intro l hl
  rcases mem_insertLit.mp hl with rfl | hl
  · exact ht
  · exact h l hl

/-- The literal of positive polarity dpll.py inserts at the unit and pure
steps coincides with the found literal. -/
theorem satLit_of_natAbs (t : Int) :
    (if decide (0 < t) then ((t.natAbs : Int)) else -(t.natAbs : Int)) = t := by
  by_cases h : 0 < t
  · rw [if_pos (by simpa using h)]
    exact Int.natAbs_of_nonneg (le_of_lt h)
  · rw [if_neg (by simpa using h)]
    have := Int.ofNat_natAbs_of_nonpos (le_of_not_lt h)
    omega

/-- The branch variable and its negation are unassigned whenever the
branch literal is. -/
theorem unassigned_natAbs {m : Model} {lit : Int} (h1 : lit ∉ m) (h2 : -lit ∉ m) :
    ((lit.natAbs : Int) ∉ m ∧ -(lit.natAbs : Int) ∉ m) := by
  rcases Int.natAbs_eq lit with h | h
  · constructor
    · rw [← h]; exact h1
    · rw [show -(lit.natAbs : Int) = -lit by omega]; exact h2
  · constructor
    · rw [show ((lit.natAbs : Int)) = -lit by omega]; exact h2
    · rw [show -(lit.natAbs : Int) = lit by omega]; exact h1

/-- Lift a sound result of a recursive call through one simplification. -/
theorem sound_lift {F : Formula} {m μ : Model} {t : Int}
    (h1 : Consistent μ) (h2 : insertLit m t ⊆ μ)
    (h3 : ∀ c' ∈ (F.filter (fun c => t ∉ c)).map (fun c => removeLit c (-t)),
      ∃ l ∈ c', l ∈ μ) :
    Consistent μ ∧ m ⊆ μ ∧ ∀ c ∈ F, ∃ l ∈ c, l ∈ μ :=
  ⟨h1, List.Subset.trans (subset_insertLit _ _) h2,
    hits_of_simplify (h2 (mem_insertLit_self _ _)) h3⟩

/-- Soundness of dpll.py `dpll_rec`: a returned model is consistent,
extends the input model, and hits every clause of the input formula.
This is the C5 invariant propagated through the recursion. -/
theorem dpll_sound (n : Nat) :
    ∀ {F : Formula} {m μ : Model}, WF F → Consistent m →
      dpll_rec n F m = some (some μ) →
      Consistent μ ∧ m ⊆ μ ∧ ∀ c ∈ F, ∃ l ∈ c, l ∈ μ := by
  induction n with
  | zero => intro F m μ _ _ h; cases h
  | succ n ih =>
      intro F m μ hWF hcons h
      rw [dpll_rec] at h
      by_cases hat : all_true F m = true
      · rw [if_pos hat] at h
        obtain rfl : m = μ := Option.some_inj.mp (Option.some_inj.mp h)
        refine ⟨hcons, List.Subset.refl _, fun c hc => ?_⟩
        obtain ⟨l, hl, hdec⟩ := List.any_eq_true.mp (List.all_eq_true.mp hat c hc)
        exact ⟨l, hl, decide_eq_true_eq.mp hdec⟩
      · rw [if_neg hat] at h
        by_cases hsf : some_false F m = true
        · rw [if_pos hsf] at h
          exact absurd (Option.some_inj.mp h) (by simp)
        · rw [if_neg hsf] at h
          split at h
          case _ u hu =>
            obtain ⟨c, hcF, hfil, hum, hunm⟩ := unit_clause_spec hu
            have huc : u ∈ c := by
              have : u ∈ c.filter (fun l => decide ((-l) ∉ m)) :=
                hfil ▸ List.mem_singleton_self u
              exact List.mem_of_mem_filter this
            have hu0 : u ≠ 0 := hWF c hcF u huc
            have hres := ih (WF_simplify _ _ hWF)
              (consistent_insert hcons hum hunm hu0) h
            rw [simplify_eq_map F u (u.natAbs : Int) (decide (0 < u))
              (satLit_of_natAbs u)] at hres
            exact sound_lift hres.1 hres.2.1 hres.2.2
          case _ hu =>
            split at h
            case _ p hp =>
              obtain ⟨⟨hpm, hpnm⟩, ⟨c, hcF, hpc⟩, _⟩ := pure_literal_spec hp
              have hp0 : p ≠ 0 := hWF c hcF p hpc
              have hres := ih (WF_simplify _ _ hWF)
                (consistent_insert hcons hpm hpnm hp0) h
              rw [simplify_eq_map F p (p.natAbs : Int) (decide (0 < p))
                (satLit_of_natAbs p)] at hres
              exact sound_lift hres.1 hres.2.1 hres.2.2
            case _ hp =>
              split at h
              case _ lit hf =>
                obtain ⟨⟨c, hcF, hlitc⟩, hun⟩ := findUnassigned_spec hf
                have hlit0 : lit ≠ 0 := hWF c hcF lit hlitc
                rw [unassigned, Bool.and_eq_true, decide_eq_true_eq,
                  decide_eq_true_eq] at hun
                obtain ⟨hv1, hv2⟩ := unassigned_natAbs hun.1 hun.2
                have hv0 : ((lit.natAbs : Int)) ≠ 0 := by omega
                split at h
                case _ h1 => cases h
                case _ res h1 =>
                  obtain rfl : res = μ := Option.some_inj.mp (Option.some_inj.mp h)
                  have hres := ih (WF_simplify _ _ hWF)
                    (consistent_insert hcons hv1 hv2 hv0) h1
                  rw [simplify_eq_map F ((lit.natAbs : Int))
                    ((lit.natAbs : Int)) true (by simp)] at hres
                  exact sound_lift hres.1 hres.2.1 hres.2.2
                case _ h1 =>
                  have hres := ih (WF_simplify _ _ hWF)
                    (consistent_insert hcons hv2
                      (by rw [neg_neg]; exact hv1) (by omega)) h
                  rw [simplify_eq_map F (-(lit.natAbs : Int))
                    ((lit.natAbs : Int)) false (by simp)] at hres
                  exact sound_lift hres.1 hres.2.1 hres.2.2
              case _ hf =>
                exact absurd (Option.some_inj.mp h) (by simp)

/-- Completeness of dpll.py `dpll_rec`: when the search reports "no
model", no assignment agreeing with the accumulated model satisfies the
current formula. -/
theorem dpll_complete (n : Nat) :
    ∀ {F : Formula} {m : Model}, WF F → dpll_rec n F m = some none →
      ∀ v : Int → Bool, (∀ l ∈ m, litHolds v l = true) →
        ¬ (∀ c ∈ F, clauseSat v c) := by
  induction n with
  | zero => intro F m _ h; cases h
  | succ n ih =>
      intro F m hWF h
      rw [dpll_rec] at h
      by_cases hat : all_true F m = true
      · rw [if_pos hat] at h
        exact absurd (Option.some_inj.mp h) (by simp)
      · rw [if_neg hat] at h
        by_cases hsf : some_false F m = true
        · intro v hagree hsat
          obtain ⟨c, hc, hall⟩ := List.any_eq_true.mp hsf
          rw [List.all_eq_true] at hall
          obtain ⟨l, hl, hh⟩ := hsat c hc
          have hl0 : l ≠ 0 := hWF c hc l hl
          have hneg := hagree (-l) (decide_eq_true_eq.mp (hall l hl))
          rw [litHolds_neg v l hl0, hh] at hneg
          cases hneg
        · rw [if_neg hsf] at h
          split at h
          case _ u hu =>
            intro v hagree hsat
            obtain ⟨c, hcF, hfil, hum, hunm⟩ := unit_clause_spec hu
            have huc : u ∈ c := by
              have : u ∈ c.filter (fun l => decide ((-l) ∉ m)) :=
                hfil ▸ List.mem_singleton_self u
              exact List.mem_of_mem_filter this
            have hu0 : u ≠ 0 := hWF c hcF u huc
            obtain ⟨l, hl, hh⟩ := hsat c hcF
            have hlm : -l ∉ m := by
              intro hx
              have hneg := hagree (-l) hx
              rw [litHolds_neg v l (hWF c hcF l hl), hh] at hneg
              cases hneg
            have hmem : l ∈ c.filter (fun l => decide ((-l) ∉ m)) :=
              List.mem_filter.mpr ⟨hl, by simpa using hlm⟩
            rw [hfil] at hmem
            obtain rfl : l = u := List.mem_singleton.mp hmem
            exact ih (WF_simplify _ _ hWF) h v (agrees_insert hagree hh)
              (by
                rw [simplify_eq_map F l (l.natAbs : Int) (decide (0 < l))
                  (satLit_of_natAbs l)]
                exact clauseSat_simplify hu0 hh hsat)
          case _ hu =>
            split at h
            case _ p hp =>
              intro v hagree hsat
              obtain ⟨⟨hpm, hpnm⟩, ⟨c0, hc0F, hpc0⟩, hpure⟩ := pure_literal_spec hp
              have hp0 : p ≠ 0 := hWF c0 hc0F p hpc0
              have hv'p : litHolds (flipTo v p) p = true := litHolds_flipTo_self v hp0
              have hv'sat : ∀ c ∈ F, clauseSat (flipTo v p) c := by
                intro c hc
                obtain ⟨l, hl, hh⟩ := hsat c hc
                by_cases hab : l.natAbs = p.natAbs
                · by_cases hlun : unassigned m l = true
                  · have hlp : l = p := hpure c hc l hl hab hlun
                    exact ⟨p, hlp ▸ hl, hv'p⟩
                  · have hassigned : l ∈ m ∨ -l ∈ m := by
                      by_contra hx
                      push_neg at hx
                      exact hlun (by simp [unassigned, hx.1, hx.2])
                    rcases hassigned with hx | hx
                    · exfalso
                      rcases natAbs_eq_natAbs_cases hab with rfl | rfl
                      · exact hpm hx
                      · exact hpnm hx
                    · exfalso
                      have hneg := hagree (-l) hx
                      rw [litHolds_neg v l (hWF c hc l hl), hh] at hneg
                      cases hneg
                · exact ⟨l, hl, (litHolds_flipTo_other v hab).trans hh⟩
              have hv'agree : ∀ l ∈ m, litHolds (flipTo v p) l = true := by
                intro l hl
                have hab : l.natAbs ≠ p.natAbs := by
                  intro he
                  rcases natAbs_eq_natAbs_cases he with rfl | rfl
                  · exact hpm hl
                  · exact hpnm hl
                exact (litHolds_flipTo_other v hab).trans (hagree l hl)
              exact ih (WF_simplify _ _ hWF) h (flipTo v p)
                (agrees_insert hv'agree hv'p)
                (by
                  rw [simplify_eq_map F p (p.natAbs : Int) (decide (0 < p))
                    (satLit_of_natAbs p)]
                  exact clauseSat_simplify hp0 hv'p hv'sat)
            case _ hp =>
              split at h
              case _ lit hf =>
                split at h
                case _ h1 => cases h
                case _ res h1 => exact absurd (Option.some_inj.mp h) (by simp)
                case _ h1 =>
                  intro v hagree hsat
                  obtain ⟨⟨c, hcF, hlitc⟩, hun⟩ := findUnassigned_spec hf
                  have hlit0 : lit ≠ 0 := hWF c hcF lit hlitc
                  have hv0 : ((lit.natAbs : Int)) ≠ 0 := by omega
                  by_cases hvv : litHolds v ((lit.natAbs : Int)) = true
                  · exact ih (WF_simplify _ _ hWF) h1 v (agrees_insert hagree hvv)
                      (by
                        rw [simplify_eq_map F ((lit.natAbs : Int))
                          ((lit.natAbs : Int)) true (by simp)]
                        exact clauseSat_simplify hv0 hvv hsat)
                  · have hvn : litHolds v (-(lit.natAbs : Int)) = true := by
                      rw [litHolds_neg v _ hv0]
                      rcases hb : litHolds v ((lit.natAbs : Int)) with _ | _
                      · rfl
                      · exact absurd hb hvv
                    exact ih (WF_simplify _ _ hWF) h v (agrees_insert hagree hvn)
                      (by
                        rw [simplify_eq_map F (-(lit.natAbs : Int))
                          ((lit.natAbs : Int)) false (by simp)]
                        exact clauseSat_simplify (by omega) hvn hsat)
              case _ hf =>
                exfalso
                obtain ⟨c, hc, hnone⟩ : ∃ c ∈ F, ∀ l ∈ c, l ∉ m := by
                  by_contra hx
                  push_neg at hx
                  apply hat
                  rw [all_true, List.all_eq_true]
                  intro c hc
                  obtain ⟨l, hl, hlm⟩ := hx c hc
                  rw [List.any_eq_true]
                  exact ⟨l, hl, by simpa using hlm⟩
                apply hsf
                rw [some_false, List.any_eq_true]
                refine ⟨c, hc, ?_⟩
                rw [List.all_eq_true]
                intro l hl
                rcases findUnassigned_eq_none hf c hc l hl with hx | hx
                · exact absurd hx (hnone l hl)
                · simpa using hx

/-- A consistent literal set, read as a characteristic assignment, makes
all its nonzero members true. -/
theorem model_assignment {μ : Model} (hcons : Consistent μ) {l : Int}
    (hl : l ∈ μ) :
    litHolds (fun x => decide (x ∈ μ)) l = true := by
  by_cases hp : 0 < l
  · simp [litHolds, hp, hl]
  · simp only [litHolds, if_neg hp]
    have hneg : -l ∉ μ := hcons l hl
    simp [hneg]

/-- Full functional correctness of dpll.py from the empty model: a
verdict is a model exactly when the formula is satisfiable. -/
theorem dpll_correct {n : Nat} {F : Formula} {r : Option Model} (hWF : WF F)
    (h : dpll_rec n F [] = some r) :
    (∃ μ, r = some μ) ↔ Sat F := by
  constructor
  · rintro ⟨μ, rfl⟩
    obtain ⟨hcons, _, hhits⟩ := dpll_sound n hWF
      (fun l hl => absurd hl (List.not_mem_nil l)) h
    refine ⟨fun x => decide (x ∈ μ), fun c hc => ?_⟩
    obtain ⟨l, hl, hlμ⟩ := hhits c hc
    exact ⟨l, hl, model_assignment hcons hlμ⟩
  · intro hsat
    rcases r with _ | μ
    · exfalso
      obtain ⟨v, hv⟩ := hsat
      exact dpll_complete n hWF h v
        (fun l hl => absurd hl (List.not_mem_nil l)) hv
    · exact ⟨μ, rfl⟩

/-! ### resolution.py: lemmas -/

theorem mem_insertSorted {x l : Int} : ∀ {t : List Int},
    l ∈ insertSorted x t ↔ l = x ∨ l ∈ t := by
  intro t
  induction t with
  | nil => simp [insertSorted]
  | cons y t ih =>
      rw [insertSorted]
      by_cases h : x ≤ y
      · rw [if_pos h, List.mem_cons]
      · rw [if_neg h, List.mem_cons, ih, List.mem_cons]
        tauto

theorem mem_sortInts {l : Int} : ∀ {t : List Int}, l ∈ sortInts t ↔ l ∈ t := by
  intro t
  induction t with
  | nil => simp [sortInts]
  | cons y t ih =>
      rw [sortInts, List.foldr_cons, mem_insertSorted, List.mem_cons]
      rw [sortInts] at ih
      rw [ih]

theorem mem_normClause {c : List Int} {l : Int} :
    l ∈ normClause c ↔ l ∈ c := by
  rw [normClause, mem_sortInts, mem_dedupFirst]

theorem mem_resolventsOf {S : List SClause} {r : SClause} :
    r ∈ resolventsOf S ↔
      ∃ c1 ∈ S, ∃ c2 ∈ S, c1 ≠ c2 ∧ resolve_pair c1 c2 = some r := by
  rw [resolventsOf]
  constructor
  · intro hres
    obtain ⟨L, hL, hrL⟩ := List.mem_flatten.mp hres
    obtain ⟨c1, hc1, rfl⟩ := List.mem_map.mp hL
    obtain ⟨c2, hc2, hif⟩ := List.mem_filterMap.mp hrL
    by_cases he : c1 = c2
    · rw [if_pos he] at hif; cases hif
    · rw [if_neg he] at hif
      exact ⟨c1, hc1, c2, hc2, he, hif⟩
  · rintro ⟨c1, hc1, c2, hc2, hne, hr⟩
    refine List.mem_flatten.mpr ⟨_, List.mem_map.mpr ⟨c1, hc1, rfl⟩, ?_⟩
    refine List.mem_filterMap.mpr ⟨c2, hc2, ?_⟩
    rw [if_neg hne]
    exact hr

theorem mem_resRound {S : List SClause} {x : SClause} :
    x ∈ resRound S ↔ x ∈ S ∨ x ∈ resolventsOf S := by
  rw [resRound, List.mem_append, mem_dedupFirst, List.mem_filter]
  constructor
  · rintro (hx | ⟨hx, _⟩)
    · exact Or.inl hx
    · exact Or.inr hx
  · rintro (hx | hx)
    · exact Or.inl hx
    · by_cases hxS : x ∈ S
      · exact Or.inl hxS
      · exact Or.inr ⟨hx, by simpa using hxS⟩

theorem subset_resRound (S : List SClause) : S ⊆ resRound S :=
  fun _ hx => mem_resRound.mpr (Or.inl hx)

theorem Deriv.mono {S T : List SClause} (hST : S ⊆ T) {c : SClause}
    (h : Deriv S c) : Deriv T c := by
  induction h with
  | mem hc => exact Deriv.mem (hST hc)
  | step _ _ hne hr ih1 ih2 => exact Deriv.step ih1 ih2 hne hr

theorem Deriv.absorb {S T : List SClause} (hT : ∀ x ∈ T, Deriv S x)
    {c : SClause} (h : Deriv T c) : Deriv S c := by
  induction h with
  | mem hc => exact hT _ hc
  | step _ _ hne hr ih1 ih2 => exact Deriv.step ih1 ih2 hne hr

theorem emptyDerivable_mono {S T : List SClause} (hST : S ⊆ T)
    (h : EmptyDerivable S) : EmptyDerivable T := by
  obtain ⟨c1, c2, h1, h2, hne, hr⟩ := h
  exact ⟨c1, c2, h1.mono hST, h2.mono hST, hne, hr⟩

/-- The saturation loop of resolution.py answers `false` exactly when the
empty clause arises from a `resolve_pair` step between two distinct
derivable clauses — i.e. when it is derivable in at least one step. -/
theorem resolution_correct (n : Nat) :
    ∀ {S : List SClause} {b : Bool}, resolution n S = some b →
      (b = false ↔ EmptyDerivable S) := by
  induction n with
  | zero => intro S b h; cases h
  | succ n ih =>
      intro S b h
      rw [resolution] at h
      by_cases he : hasEmptyResolvent S
      · rw [if_pos he] at h
        obtain rfl : b = false := (Option.some_inj.mp h).symm
        obtain ⟨c1, h1, c2, h2, hne, hr⟩ := he
        exact iff_of_true rfl ⟨c1, c2, Deriv.mem h1, Deriv.mem h2, hne, hr⟩
      · rw [if_neg he] at h
        by_cases hfix : ∀ r ∈ resolventsOf S, r ∈ S
        · rw [if_pos hfix] at h
          obtain rfl : b = true := (Option.some_inj.mp h).symm
          have hclosed : ∀ c, Deriv S c → c ∈ S := by
            intro c hc
            induction hc with
            | mem hc => exact hc
            | step _ _ hne hr ih1 ih2 =>
                exact hfix _ (mem_resolventsOf.mpr ⟨_, ih1, _, ih2, hne, hr⟩)
          refine iff_of_false (by simp) ?_
          rintro ⟨c1, c2, hd1, hd2, hne, hr⟩
          exact he ⟨c1, hclosed _ hd1, c2, hclosed _ hd2, hne, hr⟩
        · rw [if_neg hfix] at h
          rw [ih h]
          constructor
          · intro hed
            have habs : ∀ x ∈ resRound S, Deriv S x := by
              intro x hx
              rcases mem_resRound.mp hx with hx | hx
              · exact Deriv.mem hx
              · obtain ⟨c1, h1, c2, h2, hne, hr⟩ := mem_resolventsOf.mp hx
                exact Deriv.step (Deriv.mem h1) (Deriv.mem h2) hne hr
            obtain ⟨c1, c2, hd1, hd2, hne, hr⟩ := hed
            exact ⟨c1, c2, hd1.absorb habs, hd2.absorb habs, hne, hr⟩
          · intro hed
            exact emptyDerivable_mono (subset_resRound S) hed

/-- The working set after `k` full merge rounds of resolution.py. -/
def resRoundIter : Nat → List SClause → List SClause
  | 0, S => S
  | k + 1, S => resRoundIter k (resRound S)

theorem resRoundIter_succ (k : Nat) :
    ∀ S : List SClause, resRoundIter (k + 1) S = resRound (resRoundIter k S) := by
  induction k with
  | zero => intro S; rfl
  | succ k ih =>
      intro S
      rw [show resRoundIter (k + 2) S = resRoundIter (k + 1) (resRound S) from rfl,
        ih (resRound S)]
      rfl

theorem subset_resRoundIter (k : Nat) (S : List SClause) :
    S ⊆ resRoundIter k S := by
  induction k generalizing S with
  | zero => exact List.Subset.refl S
  | succ k ih =>
      exact List.Subset.trans (subset_resRound S) (ih (resRound S))

theorem resRoundIter_mono {k j : Nat} (h : k ≤ j) (S : List SClause) :
    resRoundIter k S ⊆ resRoundIter j S := by
  induction j with
  | zero =>
      obtain rfl : k = 0 := Nat.le_zero.mp h
      exact List.Subset.refl _
  | succ j ih =>
      rcases Nat.lt_or_ge k (j + 1) with hk | hk
      · refine List.Subset.trans (ih (Nat.lt_succ_iff.mp hk)) ?_
        rw [resRoundIter_succ]
        exact subset_resRound _
      · obtain rfl : k = j + 1 := Nat.le_antisymm h hk
        exact List.Subset.refl _

/-- `resolve_pair` returns `None` exactly when no literal of the first
clause has its negation in the second. -/
theorem resolve_pair_eq_none {c1 c2 : SClause} :
    resolve_pair c1 c2 = none ↔ ∀ l ∈ c1, -l ∉ c2 := by
  rw [resolve_pair]
  rcases hf : c1.find? (fun l => decide ((-l) ∈ c2)) with _ | l
  · constructor
    · intro _ l hl
      have := List.find?_eq_none.mp hf l hl
      simpa using this
    · intro _; rfl
  · constructor
    · intro hcontra; exact absurd hcontra (by simp)
    · intro hall
      have hl1 : l ∈ c1 := List.mem_of_find?_eq_some hf
      have hdec := List.find?_some (p := fun l => decide ((-l) ∈ c2)) hf
      exact absurd (decide_eq_true_eq.mp hdec) (hall l hl1)

/-- A successful `resolve_pair` is, as a set of literals, the union of the
two clauses minus both polarities of a complementary literal. -/
theorem resolve_pair_eq_some {c1 c2 r : SClause}
    (h : resolve_pair c1 c2 = some r) :
    ∃ l, l ∈ c1 ∧ -l ∈ c2 ∧
      ∀ x, (x ∈ r ↔ (x ∈ c1 ∨ x ∈ c2) ∧ x ≠ l ∧ x ≠ -l) := by
  rw [resolve_pair] at h
  rcases hf : c1.find? (fun l => decide ((-l) ∈ c2)) with _ | l
  · rw [hf] at h; cases h
  · rw [hf] at h
    obtain rfl : normClause ((c1 ++ c2).filter (fun x => x ≠ l ∧ x ≠ -l)) = r :=
      Option.some_inj.mp h
    have hdec := List.find?_some (p := fun l => decide ((-l) ∈ c2)) hf
    refine ⟨l, List.mem_of_find?_eq_some hf, decide_eq_true_eq.mp hdec, fun x => ?_⟩
    rw [mem_normClause, List.mem_filter, List.mem_append]
    simp

/-! ### Helpers for the monotonicity claim -/

theorem WF_append {F G : Formula} (h1 : WF F) (h2 : WF G) : WF (F ++ G) := by
  intro c hc
  rcases List.mem_append.mp hc with hc | hc
  · exact h1 c hc
  · exact h2 c hc

theorem WF_eraseIdx {F : Formula} (i : Nat) (h : WF F) : WF (F.eraseIdx i) :=
  fun c hc => h c ((List.eraseIdx_sublist F i).subset hc)

theorem sat_of_append {F G : Formula} (h : Sat (F ++ G)) : Sat F :=
  sat_of_forall_mem (fun c hc => List.mem_append_left _ hc) h

theorem sat_eraseIdx {F : Formula} (i : Nat) (h : Sat F) : Sat (F.eraseIdx i) :=
  sat_of_forall_mem (fun c hc => (List.eraseIdx_sublist F i).subset hc) h

theorem toClauseSet_append_subset (F G : Formula) :
    toClauseSet F ⊆ toClauseSet (F ++ G) := by
  intro x hx
  rw [toClauseSet, mem_dedupFirst, List.mem_map] at hx ⊢
  obtain ⟨c, hc, rfl⟩ := hx
  exact ⟨c, List.mem_append_left _ hc, rfl⟩

theorem toClauseSet_eraseIdx_subset (F : Formula) (i : Nat) :
    toClauseSet (F.eraseIdx i) ⊆ toClauseSet F := by
  intro x hx
  rw [toClauseSet, mem_dedupFirst, List.mem_map] at hx ⊢
  obtain ⟨c, hc, rfl⟩ := hx
  exact ⟨c, (List.eraseIdx_sublist F i).subset hc, rfl⟩

/-! ### Claim theorems -/

/-- C1 (counterexample): the claim that all three verdicts agree on every
well-formed formula on which the engines terminate is false.  On the
classic satisfiable instance `[[1,2],[-1,-2]]` all three engines return a
verdict, DP answers satisfiable and DPLL returns a model, but the
resolution engine answers `false` (unsatisfiable): its resolvent
`(c1 | c2) - {lit, -lit}` deletes both polarities of the pivot from the
union, so resolving the tautologies it generates is unsound and derives
the empty clause. -/
theorem c1_counterexample :
    dp_eliminate 2 [[1, 2], [-1, -2]] = some true ∧
    dpll_rec 4 [[1, 2], [-1, -2]] [] = some (some [-2, 1]) ∧
    resolution 3 (toClauseSet [[1, 2], [-1, -2]]) = some false :=
  ⟨by decide, by decide, by decide⟩

/-- C1 (amended): for every well-formed formula on which the DP and DPLL
engines terminate, their verdicts agree: `dp_eliminate` answers `true`
exactly when `dpll_rec` started from the empty model returns a model.
(The resolution engine is excluded: the counterexample shows it can
disagree.) -/
theorem c1_dp_dpll_agree {F : Formula} {n m : Nat} {b : Bool}
    {r : Option Model} (hWF : WF F) (hdp : dp_eliminate n F = some b)
    (hdpll : dpll_rec m F [] = some r) :
    b = true ↔ r ≠ none := by
  rw [dp_correct n hWF hdp, ← dpll_correct hWF hdpll,
    Option.ne_none_iff_exists']

/-- C1 witness: the amended agreement instantiated on `[[1]]`. -/
theorem c1_witness : (true = true) ↔ (some [1] : Option Model) ≠ none :=
  c1_dp_dpll_agree (F := [[1]]) (n := 2) (m := 2)
    (by decide) (by decide) (by decide)

/-- C2 (counterexample): the claim that the resolution engine returns
`false` iff the empty clause is derivable, and `true` iff the fixpoint
contains no empty clause, fails on the formula `[[]]`: the empty clause is
a member of the working set (derivable in zero steps, and present in the
reached fixpoint), yet the engine returns `true` — it only tests the
resolvents it forms, never the input clauses. -/
theorem c2_counterexample :
    resolution 1 (toClauseSet [([] : Clause)]) = some true ∧
    Deriv (toClauseSet [([] : Clause)]) [] :=
  ⟨by decide, Deriv.mem (by decide)⟩

/-- C2 (amended): whenever the saturation loop returns a verdict, it is
`false` exactly when the empty clause arises as a `resolve_pair` resolvent
of two distinct clauses derivable (by such steps) from the deduplicated
input — derivations of at least one step — and `true` exactly otherwise;
empty clauses already present in the input are not detected. -/
theorem c2_resolution_false_iff {n : Nat} {S : List SClause} {b : Bool}
    (h : resolution n S = some b) :
    (b = false ↔ EmptyDerivable S) ∧ (b = true ↔ ¬ EmptyDerivable S) := by
  have h1 := resolution_correct n h
  refine ⟨h1, ?_⟩
  cases b with
  | false =>
      refine iff_of_false (by simp) ?_
      intro hn
      exact hn (h1.mp rfl)
  | true =>
      refine iff_of_true rfl ?_
      intro hed
      cases h1.mpr hed

/-- C2 witness: on `[[1],[-1]]` the loop answers `false`, hence the empty
clause is derivable in one `resolve_pair` step. -/
theorem c2_witness : EmptyDerivable (toClauseSet [[1], [-1]]) :=
  ((c2_resolution_false_iff (n := 1) (S := toClauseSet [[1], [-1]])
    (by decide)).1).mp rfl

/-- C3 (code bug): on a formula containing an empty clause, DP returns
`false` and DPLL returns the no-model signal as the claim states, but the
resolution engine returns `true` (satisfiable): it never inspects input
clauses for emptiness, only freshly formed resolvents. -/
theorem c3_empty_clause_verdicts :
    dp_eliminate 1 [([] : Clause)] = some false ∧
    dpll_rec 1 [([] : Clause)] [] = some none ∧
    resolution 1 (toClauseSet [([] : Clause)]) = some true :=
  ⟨by decide, by decide, by decide⟩

/-- C4 (code bug): on the classic satisfiable instance `[[1,2],[-1,-2]]`,
DP answers satisfiable and DPLL returns the model `{-2, 1}`, which hits
both clauses and assigns no variable both polarities — but the resolution
engine answers `false` (unsatisfiable), contradicting the claim that every
engine reports satisfiable. -/
theorem c4_classic_sat_instance :
    dp_eliminate 2 [[1, 2], [-1, -2]] = some true ∧
    dpll_rec 4 [[1, 2], [-1, -2]] [] = some (some [-2, 1]) ∧
    (∀ c ∈ ([[1, 2], [-1, -2]] : Formula), ∃ l ∈ c, l ∈ ([-2, 1] : Model)) ∧
    Consistent ([-2, 1] : Model) ∧
    resolution 3 (toClauseSet [[1, 2], [-1, -2]]) = some false :=
  ⟨by decide, by decide, by decide, by decide, by decide⟩

/-- C5: every literal the three extension rules of dpll.py select is
wholly unassigned at the moment of addition (for the branch rule, both
polarities of the chosen variable are unassigned), and from a consistent
model every model `dpll_rec` returns is consistent — no variable ever
carries both polarities — and extends the input model. -/
theorem c5_model_invariant {F : Formula} {m : Model} {n : Nat} {μ : Model}
    (hWF : WF F) :
    (∀ u, unit_clause m F = some u → u ∉ m ∧ -u ∉ m) ∧
    (∀ p, pure_literal F m = some p → p ∉ m ∧ -p ∉ m) ∧
    (∀ l, findUnassigned m F = some l →
      ((l.natAbs : Int) ∉ m ∧ -(l.natAbs : Int) ∉ m)) ∧
    (Consistent m → dpll_rec n F m = some (some μ) → Consistent μ ∧ m ⊆ μ) := by
  refine ⟨?_, ?_, ?_, ?_⟩
  · intro u hu
    obtain ⟨c, _, _, h1, h2⟩ := unit_clause_spec hu
    exact ⟨h1, h2⟩
  · intro p hp
    exact (pure_literal_spec hp).1
  · intro l hl
    have hun := (findUnassigned_spec hl).2
    rw [unassigned, Bool.and_eq_true, decide_eq_true_eq, decide_eq_true_eq] at hun
    exact unassigned_natAbs hun.1 hun.2
  · intro hcons h
    obtain ⟨h1, h2, _⟩ := dpll_sound n hWF hcons h
    exact ⟨h1, h2⟩

/-- C5 witness: the invariant exercised on the unit extension of `[[-2]]`
from the model `{1}`. -/
theorem c5_witness :
    ((-2 : Int) ∉ ([1] : Model) ∧ -(-2 : Int) ∉ ([1] : Model)) ∧
    (Consistent ([-2, 1] : Model) ∧ ([1] : Model) ⊆ [-2, 1]) := by
  have h := c5_model_invariant (F := [[-2]]) (m := [1]) (n := 2)
    (μ := [-2, 1]) (by decide)
  exact ⟨h.1 (-2) (by decide), h.2.2.2 (by decide) (by decide)⟩

/-- C6: each engine's verdict is monotone in the clause set: a formula an
engine reports unsatisfiable stays unsatisfiable after appending any
clause, and a formula an engine reports satisfiable stays satisfiable
after removing any single clause (all on well-formed input, whenever the
engine returns a verdict). -/
theorem c6_monotonicity (F : Formula) (C : Clause) (i n m : Nat) :
    (WF F → WF [C] → dp_eliminate n F = some false →
      ∀ b, dp_eliminate m (F ++ [C]) = some b → b = false) ∧
    (WF F → dp_eliminate n F = some true →
      ∀ b, dp_eliminate m (F.eraseIdx i) = some b → b = true) ∧
    (WF F → WF [C] → dpll_rec n F [] = some none →
      ∀ r, dpll_rec m (F ++ [C]) [] = some r → r = none) ∧
    (WF F → (∃ μ, dpll_rec n F [] = some (some μ)) →
      ∀ r, dpll_rec m (F.eraseIdx i) [] = some r → r ≠ none) ∧
    (resolution n (toClauseSet F) = some false →
      ∀ b, resolution m (toClauseSet (F ++ [C])) = some b → b = false) ∧
    (resolution n (toClauseSet F) = some true →
      ∀ b, resolution m (toClauseSet (F.eraseIdx i)) = some b → b = true) := by
  refine ⟨?_, ?_, ?_, ?_, ?_, ?_⟩
  · intro hWF hWFC hdp b hdp'
    have hnsat : ¬ Sat F := fun hs =>
      absurd ((dp_correct n hWF hdp).mpr hs) (by simp)
    cases b with
    | false => rfl
    | true =>
        exact absurd (sat_of_append
          ((dp_correct m (WF_append hWF hWFC) hdp').mp rfl)) hnsat
  · intro hWF hdp b hdp'
    have hsat : Sat F := (dp_correct n hWF hdp).mp rfl
    exact (dp_correct m (WF_eraseIdx i hWF) hdp').mpr (sat_eraseIdx i hsat)
  · intro hWF hWFC hdpll r hdpll'
    have hnsat : ¬ Sat F := fun hs => by
      obtain ⟨μ, hμ⟩ := (dpll_correct hWF hdpll).mpr hs
      cases hμ
    cases r with
    | none => rfl
    | some μ =>
        exact absurd (sat_of_append
          ((dpll_correct (WF_append hWF hWFC) hdpll').mp ⟨μ, rfl⟩)) hnsat
  · rintro hWF ⟨μ0, hdpll⟩ r hdpll'
    have hsat : Sat F := (dpll_correct hWF hdpll).mp ⟨μ0, rfl⟩
    obtain ⟨μ, hμ⟩ := (dpll_correct (WF_eraseIdx i hWF) hdpll').mpr
      (sat_eraseIdx i hsat)
    rw [hμ]
    simp
  · intro hres b hres'
    have hed : EmptyDerivable (toClauseSet F) := (resolution_correct n hres).mp rfl
    exact (resolution_correct m hres').mpr
      (emptyDerivable_mono (toClauseSet_append_subset F [C]) hed)
  · intro hres b hres'
    have hned : ¬ EmptyDerivable (toClauseSet F) := fun hed => by
      cases (resolution_correct n hres).mpr hed
    cases b with
    | true => rfl
    | false =>
        exact absurd (emptyDerivable_mono (toClauseSet_eraseIdx_subset F i)
          ((resolution_correct m hres').mp rfl)) hned

/-- C6 witness: the six parts exercised on `[[1],[-1]]` plus clause `[2]`
(unsatisfiable side) and on `[[1]]` with its only clause removed
(satisfiable side). -/
theorem c6_witness :
    ((false : Bool) = false) ∧ ((true : Bool) = true) ∧
    ((none : Option Model) = none) ∧
    ((some ([] : Model) : Option Model) ≠ none) ∧
    ((false : Bool) = false) ∧ ((true : Bool) = true) := by
  have hA := c6_monotonicity [[1], [-1]] [2] 0 2 3
  have hB := c6_monotonicity [[1]] [2] 0 2 2
  exact ⟨hA.1 (by decide) (by decide) (by decide) false (by decide),
    hB.2.1 (by decide) (by decide) true (by decide),
    hA.2.2.1 (by decide) (by decide) (by decide) none (by decide),
    hB.2.2.2.1 (by decide) ⟨[1], by decide⟩ (some []) (by decide),
    hA.2.2.2.2.1 (by decide) false (by decide),
    hB.2.2.2.2.2 (by decide) true (by decide)⟩

/-- C7: when dp.py's unit-propagation step runs with unit literal `u` and
no clause collapses, the result is exactly "drop every clause containing
`u`, delete `-u` from every remaining clause"; when some clause does
collapse, `unit_propagate` returns `[[]]` and the surrounding
`dp_eliminate` call (taken in its unit branch) reports `false`. -/
theorem c7_unit_propagation {F : Formula} {u : Int} {n : Nat} :
    ((∀ c ∈ F, ¬ (u ∉ c ∧ -u ∈ c ∧ removeLit c (-u) = [])) →
      unit_propagate F u =
        (F.filter (fun c => u ∉ c)).map (fun c => removeLit c (-u))) ∧
    ((∃ c ∈ F, u ∉ c ∧ -u ∈ c ∧ removeLit c (-u) = []) →
      unit_propagate F u = [[]] ∧
      (find_pure_literal F = none → find_unit_clause F = some u →
        ¬ F.any (fun c => c.isEmpty) = true → ¬ F.isEmpty = true →
        dp_eliminate (n + 2) F = some false)) := by
  constructor
  · intro hno
    rw [unit_propagate]
    rcases hgo : unit_propagate_go u F with _ | F'
    · obtain ⟨c, hc, hspec⟩ := unit_propagate_go_eq_none.mp hgo
      exact absurd hspec (hno c hc)
    · rw [unit_propagate_go_eq_some hgo]
  · intro hyes
    have hprop : unit_propagate F u = [[]] := by
      rw [unit_propagate, unit_propagate_go_eq_none.mpr hyes]
    refine ⟨hprop, fun hpure hunit hany hempty => ?_⟩
    rw [dp_eliminate, if_neg hany, if_neg hempty, hpure, hunit]
    show dp_eliminate (n + 1) (unit_propagate F u) = some false
    rw [hprop]
    rfl

/-- C7 witness: both halves exercised with unit literal `1`, on
`[[1],[-1]]` (the clause `[-1]` collapses) and on `[[1],[-1,2]]` (no
collapse). -/
theorem c7_witness :
    unit_propagate [[1], [-1]] 1 = [[]] ∧
    dp_eliminate 2 [[1], [-1]] = some false ∧
    unit_propagate [[1], [-1, 2]] 1 =
      (([[1], [-1, 2]] : Formula).filter (fun c => (1 : Int) ∉ c)).map
        (fun c => removeLit c (-1)) := by
  have hA := c7_unit_propagation (F := [[1], [-1]]) (u := 1) (n := 0)
  have hB := c7_unit_propagation (F := [[1], [-1, 2]]) (u := 1) (n := 0)
  have h2 := hA.2 (by decide)
  exact ⟨h2.1, h2.2 (by decide) (by decide) (by decide) (by decide),
    hB.1 (by decide)⟩

/-- C8 (counterexample): the claim that every recursive call of
`dp_eliminate` is on a formula whose active-variable set is a strict
subset of the caller's is false.  On `[[1,-1,2],[-1,3],[-2,-3]]` no clause
is empty, no literal is pure and no clause is unit, so the call recurses
on the elimination step — whose result has exactly the same variable set
{1,2,3}: the clause `[1,-1,2]` is tautological in the pivot `1`, and its
resolvent with `[-1,3]` keeps the literal `-1`. -/
theorem c8_counterexample :
    find_pure_literal [[1, -1, 2], [-1, 3], [-2, -3]] = none ∧
    find_unit_clause [[1, -1, 2], [-1, 3], [-2, -3]] = none ∧
    ¬ ([[1, -1, 2], [-1, 3], [-2, -3]] : Formula).any (fun c => c.isEmpty) = true ∧
    dp_eliminate 5 [[1, -1, 2], [-1, 3], [-2, -3]] =
      dp_eliminate 4 (dpElimStep [[1, -1, 2], [-1, 3], [-2, -3]]) ∧
    varsOf (dpElimStep [[1, -1, 2], [-1, 3], [-2, -3]]) =
      varsOf [[1, -1, 2], [-1, 3], [-2, -3]] :=
  ⟨by decide, by decide, by decide, by decide, by decide⟩

/-- C8 (amended): `dp_eliminate` is total on every well-formed formula —
each recursive call strictly decreases the sum of the number of clauses
containing a complementary pair and the number of active variables, so
fuel exceeding that measure always yields a verdict. -/
theorem c8_dp_total_amended {F : Formula} (hWF : WF F) :
    (dp_eliminate (dpMeasure F + 1) F).isSome = true := by
  have _ := hWF
  exact dp_total (dpMeasure F + 1) F (Nat.lt_succ_self _)

/-- C8 witness: totality instantiated on the counterexample formula. -/
theorem c8_witness :
    WF [[1, -1, 2], [-1, 3], [-2, -3]] ∧
    (dp_eliminate (dpMeasure [[1, -1, 2], [-1, 3], [-2, -3]] + 1)
      [[1, -1, 2], [-1, 3], [-2, -3]]).isSome = true :=
  ⟨by decide, c8_dp_total_amended (by decide)⟩

/-- C9: `resolve_pair` returns `None` exactly when no literal of the
first clause has its negation in the second; otherwise it returns, for
some literal `l` of the first clause whose negation is in the second, the
set of literals of the union minus `l` and `-l` — every other literal is
retained (including any further complementary pair, so the resolvent may
be a tautology) and every occurrence of `l` or `-l` from either clause is
removed. -/
theorem c9_resolve_pair_spec (c1 c2 : SClause) :
    (resolve_pair c1 c2 = none ↔ ∀ l ∈ c1, -l ∉ c2) ∧
    (∀ r, resolve_pair c1 c2 = some r →
      ∃ l, l ∈ c1 ∧ -l ∈ c2 ∧
        ∀ x, (x ∈ r ↔ (x ∈ c1 ∨ x ∈ c2) ∧ x ≠ l ∧ x ≠ -l)) :=
  ⟨resolve_pair_eq_none, fun _ h => resolve_pair_eq_some h⟩

/-- C9 witness: the spec applied to the pair `{1,2}`, `{-2,-1}` (its
resolvent `{-2,2}` is a tautology) and to the unresolvable pair
`{2}`, `{1}`. -/
theorem c9_witness :
    (∃ l, l ∈ ([1, 2] : SClause) ∧ -l ∈ ([-2, -1] : SClause) ∧
      ∀ x, (x ∈ ([-2, 2] : SClause) ↔
        (x ∈ ([1, 2] : SClause) ∨ x ∈ ([-2, -1] : SClause)) ∧ x ≠ l ∧ x ≠ -l)) ∧
    resolve_pair [2] [1] = none := by
  refine ⟨(c9_resolve_pair_spec [1, 2] [-2, -1]).2 [-2, 2] (by decide), ?_⟩
  exact (c9_resolve_pair_spec [2] [1]).1.mpr (by decide)

/-- C10: the resolution working set grows monotonically: one loop round
is exactly the `resRound` merge, the working set at the start of every
round contains the deduplicated input clauses, and every clause present
after `k` rounds is present after any `j ≥ k` rounds — clauses are only
added, never removed. -/
theorem c10_working_set_monotone (F : Formula) (k j : Nat) :
    (∀ n S, resolution (n + 1) S =
      if hasEmptyResolvent S then some false
      else if ∀ r ∈ resolventsOf S, r ∈ S then some true
      else resolution n (resRound S)) ∧
    toClauseSet F ⊆ resRoundIter k (toClauseSet F) ∧
    resRoundIter k (toClauseSet F) ⊆ resRoundIter (k + 1) (toClauseSet F) ∧
    (k ≤ j → resRoundIter k (toClauseSet F) ⊆ resRoundIter j (toClauseSet F)) := by
  refine ⟨fun n S => rfl, subset_resRoundIter k _, ?_,
    fun h => resRoundIter_mono h _⟩
  rw [resRoundIter_succ]
  exact subset_resRound _

/-- C10 witness: monotone growth between rounds one and two on the
classic instance. -/
theorem c10_witness :
    resRoundIter 1 (toClauseSet [[1, 2], [-1, -2]]) ⊆
      resRoundIter 2 (toClauseSet [[1, 2], [-1, -2]]) :=
  (c10_working_set_monotone [[1, 2], [-1, -2]] 1 2).2.2.2 (by decide)

end SatSolvers
